import Mathlib

/-!
Verification of the dynet text model-serialization core (`src/dynet/io.cc`).

The embedding works over byte streams represented as `List Char` (the file
content is ASCII by construction; one `Char` stands for one byte).  Pure
functions from the source are translated directly; the stream-based loops
are translated with an explicit position into the byte list and a fuel
argument (the C++ loops strictly advance the stream position, and the
top-level entry points pass enough fuel for any run over the given bytes).

Components of the dynet repository that are used by `io.cc` but are not part
of the given source (the `vector<float>` stream inserters/extractors from
`str-util.h`, `Dim`'s stream operators, and the `ParameterCollection`
factory functions) are modelled from the specification; each such
definition carries a doc comment starting with `Modelled from the spec:`.
The numeric domain of tensor elements is modelled as `Nat` with a decimal
text codec: the spec declares the float codec lossless at the declared
precision, and the claims under study concern framing, filtering and
ordering, not float arithmetic.
-/

abbrev Str := List Char

/-- One byte/char is a token separator for `operator>>` (C++ `isspace`). -/
def isWs (c : Char) : Bool := c.isWhitespace

/-- A string usable as a single whitespace-delimited token: nonempty and free
of whitespace characters. -/
def tokenOk (t : Str) : Bool := !t.isEmpty && t.all (fun c => !isWs c)

/-- Split a byte string into whitespace-delimited tokens, dropping empty
fragments, as a sequence of C++ `operator>>` string extractions would
produce.  `cur` accumulates the current token in reverse. -/
def wordsAux (cur : Str) : Str → List Str
  | [] => if cur.isEmpty then [] else [cur.reverse]
  | c :: cs =>
    if isWs c then
      if cur.isEmpty then wordsAux [] cs else cur.reverse :: wordsAux [] cs
    else wordsAux (c :: cur) cs

def words (s : Str) : List Str := wordsAux [] s

/-- Decimal digit characters, written as an explicit table so that facts
about them are decidable by cases. -/
def digitChar (d : Nat) : Char :=
  match d with
  | 0 => '0' | 1 => '1' | 2 => '2' | 3 => '3' | 4 => '4'
  | 5 => '5' | 6 => '6' | 7 => '7' | 8 => '8' | _ => '9'

def charDigit? (c : Char) : Option Nat :=
  if '0' ≤ c ∧ c ≤ '9' then some (c.toNat - '0'.toNat) else none

/-- Big-endian decimal digits of `n`; `fuel` bounds the recursion depth and
any `fuel > n` is enough. -/
def toDigitsBE (fuel n : Nat) : List Nat :=
  match fuel with
  | 0 => []
  | f + 1 => if n < 10 then [n] else toDigitsBE f (n / 10) ++ [n % 10]

/-- Render a natural number in decimal. -/
def renderNat (n : Nat) : Str := (toDigitsBE (n + 1) n).map digitChar

def parseNatAux (acc : Nat) : Str → Option Nat
  | [] => some acc
  | c :: cs =>
    match charDigit? c with
    | some d => parseNatAux (acc * 10 + d) cs
    | none => none

/-- Parse a nonempty all-digit token as a natural number. -/
def parseNat (s : Str) : Option Nat := if s.isEmpty then none else parseNatAux 0 s

theorem charDigit_digitChar {d : Nat} (h : d < 10) : charDigit? (digitChar d) = some d := by
  interval_cases d <;> decide

theorem digitChar_not_ws (d : Nat) : isWs (digitChar d) = false := by
  rcases d with _ | _ | _ | _ | _ | _ | _ | _ | _ | d <;> rfl

theorem parseNatAux_append (acc : Nat) (l₁ l₂ : Str) :
    parseNatAux acc (l₁ ++ l₂) =
      match parseNatAux acc l₁ with
      | some a => parseNatAux a l₂
      | none => none := by
  induction l₁ generalizing acc with
  | nil => simp [parseNatAux]
  | cons c cs ih =>
    simp only [List.cons_append, parseNatAux]
    cases charDigit? c with
    | none => simp
    | some d => simp [ih]

theorem toDigitsBE_ne_nil {fuel n : Nat} (h : n < fuel) : toDigitsBE fuel n ≠ [] := by
  cases fuel with
  | zero => omega
  | succ f =>
    unfold toDigitsBE
    split
    · simp
    · simp

theorem parseNatAux_toDigitsBE :
    ∀ (fuel n acc : Nat), n < fuel →
      parseNatAux acc ((toDigitsBE fuel n).map digitChar) =
        some (acc * 10 ^ (toDigitsBE fuel n).length + n) := by
  intro fuel
  induction fuel with
  | zero => intro n acc h; omega
  | succ f ih =>
    intro n acc h
    unfold toDigitsBE
    by_cases h10 : n < 10
    · simp only [if_pos h10, List.map_cons, List.map_nil, parseNatAux,
        charDigit_digitChar h10, List.length_cons, List.length_nil]
      simp
    · simp only [if_neg h10, List.map_append, List.map_cons, List.map_nil]
      rw [parseNatAux_append]
      have hdiv : n / 10 < f := by
        have h1 : n / 10 < n := Nat.div_lt_self (by omega) (by omega)
        omega
      rw [ih (n / 10) acc hdiv]
      simp only [parseNatAux, charDigit_digitChar (Nat.mod_lt n (by omega) : n % 10 < 10)]
      simp only [List.length_append, List.length_cons, List.length_nil]
      congr 1
      have : acc * 10 ^ ((toDigitsBE f (n / 10)).length + 1) =
          acc * 10 ^ (toDigitsBE f (n / 10)).length * 10 := by ring
      rw [this]
      have hnm : n / 10 * 10 + n % 10 = n := by omega
      ring_nf
      omega

theorem parseNat_renderNat (n : Nat) : parseNat (renderNat n) = some n := by
  unfold parseNat renderNat
  have hne := @toDigitsBE_ne_nil (n + 1) n (by omega)
  have : ((toDigitsBE (n + 1) n).map digitChar).isEmpty = false := by
    cases hd : toDigitsBE (n + 1) n with
    | nil => exact absurd hd hne
    | cons a l => simp [hd]
  rw [if_neg (by simp [this])]
  rw [parseNatAux_toDigitsBE (n + 1) n 0 (by omega)]
  simp

theorem renderNat_tokenOk (n : Nat) : tokenOk (renderNat n) = true := by
  unfold tokenOk renderNat
  have hne := @toDigitsBE_ne_nil (n + 1) n (by omega)
  rw [Bool.and_eq_true]
  constructor
  · cases hd : toDigitsBE (n + 1) n with
    | nil => exact absurd hd hne
    | cons a l => simp [hd]
  · rw [List.all_eq_true]
    intro c hc
    rw [List.mem_map] at hc
    obtain ⟨d, _, rfl⟩ := hc
    simp [digitChar_not_ws]

theorem renderNat_no_ws {n : Nat} {c : Char} (h : c ∈ renderNat n) : isWs c = false := by
  unfold renderNat at h
  rw [List.mem_map] at h
  obtain ⟨d, _, rfl⟩ := h
  exact digitChar_not_ws d

theorem not_ws_ne_nl {c : Char} (h : isWs c = false) : c ≠ '\n' := by
  intro hc
  subst hc
  simp [isWs] at h

theorem not_ws_ne_space {c : Char} (h : isWs c = false) : c ≠ ' ' := by
  intro hc
  subst hc
  simp [isWs] at h

theorem wordsAux_token (t : Str) (ht : ∀ c ∈ t, isWs c = false) :
    ∀ (cur r : Str), wordsAux cur (t ++ r) = wordsAux (t.reverse ++ cur) r := by
  induction t with
  | nil => intro cur r; simp
  | cons c cs ih =>
    intro cur r
    have hc : isWs c = false := ht c (by simp)
    simp only [List.cons_append, wordsAux, hc, Bool.false_eq_true, if_false]
    have := ih (fun x hx => ht x (by simp [hx])) (c :: cur) r
    simp only [List.append_eq] at this ⊢
    rw [this]
    simp

theorem words_sep (t r : Str) (ht : tokenOk t = true) :
    words (t ++ ' ' :: r) = t :: words r := by
  unfold words
  have ht' : ∀ c ∈ t, isWs c = false := by
    intro c hc
    have := (Bool.and_eq_true _ _).mp ht
    have h2 := List.all_eq_true.mp this.2 c hc
    simpa using h2
  rw [wordsAux_token t ht' [] (' ' :: r)]
  have hne : t ≠ [] := by
    intro h
    subst h
    simp [tokenOk] at ht
  have hrev : t.reverse.isEmpty = false := by
    cases t with
    | nil => exact absurd rfl hne
    | cons a l => simp
  have hw : isWs ' ' = true := by decide
  simp only [List.append_nil, wordsAux, hw, if_true, hrev, Bool.false_eq_true, if_false,
    List.reverse_reverse]

theorem words_single (t : Str) (ht : tokenOk t = true) : words t = [t] := by
  unfold words
  have ht' : ∀ c ∈ t, isWs c = false := by
    intro c hc
    have := (Bool.and_eq_true _ _).mp ht
    have h2 := List.all_eq_true.mp this.2 c hc
    simpa using h2
  have := wordsAux_token t ht' [] []
  simp only [List.append_nil] at this
  rw [this]
  have hne : t.isEmpty = false := by
    have := (Bool.and_eq_true _ _).mp ht
    simpa using this.1
  simp only [wordsAux]
  rw [if_neg (by cases t <;> simp_all)]
  simp

/-- Modelled from the spec: the `vector<float>` stream inserter
(`dynet/str-util.h`, not under `src/`) "renders each numeric array as a
single line of whitespace-delimited floating-point text"; elements are
separated by single spaces. -/
def renderVec : List Nat → Str
  | [] => []
  | [v] => renderNat v
  | v :: vs => renderNat v ++ ' ' :: renderVec vs

/-- Modelled from the spec: the `vector<float>` stream extractor reads one
number per pre-sized slot of the vector, element by element; when tokens run
out or fail to parse, the remaining slots keep their previous contents (the
C++ extraction stops in a fail state without touching them). -/
def parseInto : List Nat → List Str → List Nat
  | [], _ => []
  | v :: vs, [] => v :: vs
  | v :: vs, t :: ts =>
    match parseNat t with
    | some n => n :: parseInto vs ts
    | none => v :: vs

/-- One `iss >> values` step: tokenize the line, then fill the slots. -/
def parseLine (line : Str) (slots : List Nat) : List Nat := parseInto slots (words line)

/-- `std::vector::resize`: truncate or pad with zeros. -/
def resizeVec (v : List Nat) (n : Nat) : List Nat :=
  v.take n ++ List.replicate (n - v.length) 0

theorem resizeVec_length (v : List Nat) (n : Nat) : (resizeVec v n).length = n := by
  simp [resizeVec]
  omega

theorem words_renderVec (v : List Nat) : words (renderVec v) = v.map renderNat := by
  induction v with
  | nil => rfl
  | cons x xs ih =>
    cases xs with
    | nil => simpa [renderVec] using words_single (renderNat x) (renderNat_tokenOk x)
    | cons y ys =>
      show words (renderNat x ++ ' ' :: renderVec (y :: ys)) = _
      rw [words_sep _ _ (renderNat_tokenOk x), ih]
      rfl

theorem parseInto_full (v : List Nat) :
    ∀ slots : List Nat, slots.length = v.length → parseInto slots (v.map renderNat) = v := by
  induction v with
  | nil =>
    intro slots h
    cases slots with
    | nil => rfl
    | cons a l => simp at h
  | cons x xs ih =>
    intro slots h
    cases slots with
    | nil => simp at h
    | cons a l =>
      simp only [List.map_cons, parseInto, parseNat_renderNat]
      rw [ih l (by simpa using h)]

theorem parseLine_renderVec (v slots : List Nat) (h : slots.length = v.length) :
    parseLine (renderVec v) slots = v := by
  unfold parseLine
  rw [words_renderVec, parseInto_full v slots h]

/-- A tensor shape: the ordered list of dimension extents (dynet `Dim.d`,
batch dimension not used by the serialization core). -/
abbrev Dim := List Nat

/-- Total element count of a shape (`Dim::size()`): product of extents. -/
def dimSize (d : Dim) : Nat := d.foldr (fun a b => a * b) 1

def renderDimInner : Dim → Str
  | [] => []
  | [x] => renderNat x
  | x :: xs => renderNat x ++ ',' :: renderDimInner xs

/-- Modelled from the spec: `Dim`'s stream inserter (not under `src/`)
renders a shape "in a fixed, parseable textual form (e.g. `{d0,d1,...}`)". -/
def renderDim (d : Dim) : Str := '{' :: (renderDimInner d ++ ['}'])

/-- Prepend a character to the first fragment of a split result. -/
def consHead (c : Char) : List Str → List Str
  | [] => [[c]]
  | t :: ts => (c :: t) :: ts

/-- Split on commas, keeping empty fragments. -/
def splitComma : Str → List Str
  | [] => [[]]
  | c :: cs => if c = ',' then [] :: splitComma cs else consHead c (splitComma cs)

def parseNatList : List Str → Option (List Nat)
  | [] => some []
  | t :: ts =>
    match parseNat t, parseNatList ts with
    | some n, some ns => some (n :: ns)
    | _, _ => none

/-- Modelled from the spec: `Dim`'s stream extractor parses the same
`{d0,d1,...}` form back into a shape; anything else fails. -/
def parseDim (s : Str) : Option Dim :=
  if s.head? = some '{' then
    let rest := s.tail
    if rest.getLast? = some '}' then
      let inner := rest.dropLast
      if inner.isEmpty then some []
      else parseNatList (splitComma inner)
    else none
  else none

theorem digitChar_ne_comma (d : Nat) : digitChar d ≠ ',' := by
  rcases d with _ | _ | _ | _ | _ | _ | _ | _ | _ | d <;>
    first
    | decide
    | exact fun h => absurd h (by decide : ¬ ('9' : Char) = ',')

theorem renderNat_no_comma {n : Nat} {c : Char} (h : c ∈ renderNat n) : c ≠ ',' := by
  unfold renderNat at h
  rw [List.mem_map] at h
  obtain ⟨d, _, rfl⟩ := h
  exact digitChar_ne_comma d

theorem splitComma_cons (c : Char) (cs : Str) :
    splitComma (c :: cs) = if c = ',' then [] :: splitComma cs else consHead c (splitComma cs) :=
  rfl

theorem consHead_cons (c : Char) (t : Str) (ts : List Str) :
    consHead c (t :: ts) = (c :: t) :: ts :=
  rfl

theorem splitComma_no_comma (t : Str) (h : ∀ c ∈ t, c ≠ ',') : splitComma t = [t] := by
  induction t with
  | nil => rfl
  | cons c cs ih =>
    rw [splitComma_cons, if_neg (h c (by simp)), ih (fun x hx => h x (by simp [hx])),
      consHead_cons]

theorem splitComma_sep (a r : Str) (h : ∀ c ∈ a, c ≠ ',') :
    splitComma (a ++ ',' :: r) = a :: splitComma r := by
  induction a with
  | nil => rw [List.nil_append, splitComma_cons, if_pos rfl]
  | cons c cs ih =>
    rw [List.cons_append, splitComma_cons, if_neg (h c (by simp)),
      ih (fun x hx => h x (by simp [hx])), consHead_cons]

theorem parseNatList_map (l : List Nat) : parseNatList (l.map renderNat) = some l := by
  induction l with
  | nil => rfl
  | cons x xs ih => simp [parseNatList, parseNat_renderNat, ih]

theorem splitComma_renderDimInner (d : Dim) :
    splitComma (renderDimInner d) = match d with | [] => [[]] | _ => d.map renderNat := by
  induction d with
  | nil => rfl
  | cons x xs ih =>
    cases xs with
    | nil =>
      show splitComma (renderNat x) = [renderNat x]
      exact splitComma_no_comma _ (fun c hc => renderNat_no_comma hc)
    | cons y ys =>
      show splitComma (renderNat x ++ ',' :: renderDimInner (y :: ys)) = _
      rw [splitComma_sep _ _ (fun c hc => renderNat_no_comma hc), ih]
      rfl

theorem renderDimInner_ne_nil {d : Dim} (h : d ≠ []) : renderDimInner d ≠ [] := by
  cases d with
  | nil => exact absurd rfl h
  | cons x xs =>
    cases xs with
    | nil =>
      show renderNat x ≠ []
      intro hc
      have := renderNat_tokenOk x
      rw [hc] at this
      simp [tokenOk] at this
    | cons y ys =>
      show renderNat x ++ ',' :: renderDimInner (y :: ys) ≠ []
      simp

theorem parseDim_renderDim (d : Dim) : parseDim (renderDim d) = some d := by
  unfold renderDim parseDim
  simp only [List.head?_cons, List.tail_cons, if_pos rfl, List.getLast?_concat,
    List.dropLast_concat]
  cases hd : d with
  | nil => rfl
  | cons x xs =>
    have hne : renderDimInner (x :: xs) ≠ [] := renderDimInner_ne_nil (by simp)
    have hE : (renderDimInner (x :: xs)).isEmpty = false := by
      cases hr : renderDimInner (x :: xs) with
      | nil => exact absurd hr hne
      | cons a l => simp
    simp only [hE, Bool.false_eq_true, if_false]
    rw [splitComma_renderDimInner]
    exact parseNatList_map (x :: xs)

theorem renderDimInner_no_ws (d : Dim) : ∀ c ∈ renderDimInner d, isWs c = false := by
  induction d with
  | nil => intro c hc; simp [renderDimInner] at hc
  | cons x xs ih =>
    cases xs with
    | nil =>
      intro c hc
      exact renderNat_no_ws hc
    | cons y ys =>
      intro c hc
      show isWs c = false
      have hc' : c ∈ renderNat x ++ ',' :: renderDimInner (y :: ys) := hc
      rw [List.mem_append] at hc'
      rcases hc' with h1 | h2
      · exact renderNat_no_ws h1
      · rcases List.mem_cons.mp h2 with rfl | h3
        · decide
        · exact ih c h3

theorem renderDim_tokenOk (d : Dim) : tokenOk (renderDim d) = true := by
  unfold tokenOk renderDim
  rw [Bool.and_eq_true]
  refine ⟨by simp, ?_⟩
  rw [List.all_eq_true]
  intro c hc
  rcases List.mem_cons.mp hc with rfl | h2
  · decide
  · rw [List.mem_append] at h2
    rcases h2 with h3 | h4
    · simp [renderDimInner_no_ws d c h3]
    · rcases List.mem_singleton.mp h4 with rfl
      decide

/-- The `#Parameter#` record tag. -/
def pTag : Str := "#Parameter#".data

/-- The `#LookupParameter#` record tag. -/
def lTag : Str := "#LookupParameter#".data

/-- Modelled from the spec: `startswith` from `dynet/str-util.h` (not under
`src/`): whether `pre` is a prefix of `s`. -/
def startswith (s pre : Str) : Bool := pre.isPrefixOf s

/-- `valid_key` (io.cc:14-20): empty is valid; `"/"` is invalid; otherwise a
key is valid iff it contains no space and no `'#'`. -/
def valid_key (s : Str) : Bool :=
  if s.length = 0 then true
  else if s = ['/'] then false
  else !(s.any (fun c => c == ' ' || c == '#'))

/-- `valid_pc_key` (io.cc:22-26): empty is valid; otherwise must start with
`'/'` and be `valid_key`. -/
def valid_pc_key (s : Str) : Bool :=
  if s.length = 0 then true
  else if !(startswith s ['/']) then false
  else valid_key s

/-- `ParameterStorage`: a dense parameter's name, shape, values and
gradients (`p.name`, `p.dim`, `p.values`, `p.g`). -/
structure ParameterStorage where
  name : Str
  dim : Dim
  values : List Nat
  g : List Nat
deriving DecidableEq

/-- `LookupParameterStorage`: a lookup table's name, per-row shape `dim`,
full shape `all_dim` (per-row extents with the row count as trailing
extent), and flattened values/gradients (`all_values`, `all_grads`). -/
structure LookupParameterStorage where
  name : Str
  dim : Dim
  all_dim : Dim
  all_values : List Nat
  all_grads : List Nat
deriving DecidableEq

/-- `ParameterCollectionStorage`: the model's parameter and lookup-parameter
lists in stored order. -/
structure ParameterCollectionStorage where
  params : List ParameterStorage
  lookup_params : List LookupParameterStorage
deriving DecidableEq

/-- A `ParameterCollection` as the saver sees it: its full namespace name
(`get_fullname()`) and its storage (`get_storage()`). -/
structure Model where
  fullname : Str
  storage : ParameterCollectionStorage
deriving DecidableEq

/-- One on-disk record, before rendering: tag, key, declared shape, and the
two numeric payload vectors. -/
structure Rec where
  tag : Str
  name : Str
  dims : Dim
  vals : List Nat
  grads : List Nat
deriving DecidableEq

/-- The two payload lines of a record, each newline-terminated, exactly as
`TextFileSaver::save(const ParameterStorage&)` builds its `buffer`
(io.cc:69-72): values line, gradients line. -/
def payloadStr (r : Rec) : Str :=
  renderVec r.vals ++ '\n' :: (renderVec r.grads ++ ['\n'])

/-- The header line (without its terminating newline): tag, key, shape, and
the payload byte count, space-separated (io.cc:73-74). -/
def headerStr (r : Rec) : Str :=
  r.tag ++ ' ' :: (r.name ++ ' ' :: (renderDim r.dims ++ ' ' :: renderNat (payloadStr r).length))

/-- A full serialized record: header line, newline, payload bytes. -/
def serializeRec (r : Rec) : Str := headerStr r ++ '\n' :: payloadStr r

def serializeRecs : List Rec → Str
  | [] => []
  | r :: rs => serializeRec r ++ serializeRecs rs

/-- Well-formedness of a record as data: the tag and key are single
whitespace-free tokens and the payload vectors have exactly the declared
element count.  Every record the saver emits (for a whitespace-free key and
a well-formed model) satisfies this. -/
def WFRec (r : Rec) : Bool :=
  tokenOk r.tag && tokenOk r.name &&
    (r.vals.length == dimSize r.dims) && (r.grads.length == dimSize r.dims)

def WFFile (rs : List Rec) : Bool := rs.all WFRec

/-- `key_.back()` on a `std::string`: reading the last character.  On the
empty string this is an out-of-bounds access (undefined behaviour in the
source); the total embedding returns `none` there. -/
def keyNormalize (key : Str) : Option Str :=
  match key.getLast? with
  | none => none
  | some c => some (if c ≠ '/' then key ++ ['/'] else key)

/-- The record `TextFileSaver::save(const ParameterStorage&, key)` writes
(io.cc:67-76): the header key falls back to the parameter's own name when
`key` is empty. -/
def saveParamRecord (p : ParameterStorage) (key : Str) : Rec :=
  { tag := pTag, name := if key.length > 0 then key else p.name,
    dims := p.dim, vals := p.values, grads := p.g }

/-- The record `TextFileSaver::save(const LookupParameterStorage&, key)`
writes (io.cc:78-86), using the full shape `all_dim` and the flattened
`all_values`/`all_grads`. -/
def saveLookupRecord (q : LookupParameterStorage) (key : Str) : Rec :=
  { tag := lTag, name := if key.length > 0 then key else q.name,
    dims := q.all_dim, vals := q.all_values, grads := q.all_grads }

/-- `std::string::substr(pos)` as used at io.cc:47,49: the suffix of the
string from `pos`; a `pos` beyond the string's length throws
`std::out_of_range`, modelled as `none`. -/
def substrFrom (s : Str) (pos : Nat) : Option Str :=
  if pos ≤ s.length then some (s.drop pos) else none

/-- The per-parameter records of the non-empty-key save path (io.cc:46-47):
each entity's name is stripped of the model's own full name with `substr`,
whose throw aborts the save (`none`) when a name is shorter than the full
name. -/
def mapSaveParams (stripLen : Nat) (key_ : Str) :
    List ParameterStorage → Option (List Rec)
  | [] => some []
  | p :: ps =>
    match substrFrom p.name stripLen with
    | none => none
    | some suf =>
      match mapSaveParams stripLen key_ ps with
      | none => none
      | some rest => some (saveParamRecord p (key_ ++ suf) :: rest)

/-- The per-lookup-parameter records of the non-empty-key save path
(io.cc:48-49). -/
def mapSaveLookups (stripLen : Nat) (key_ : Str) :
    List LookupParameterStorage → Option (List Rec)
  | [] => some []
  | q :: qs =>
    match substrFrom q.name stripLen with
    | none => none
    | some suf =>
      match mapSaveLookups stripLen key_ qs with
      | none => none
      | some rest => some (saveLookupRecord q (key_ ++ suf) :: rest)

/-- The records `TextFileSaver::save(const ParameterCollection&, key)` emits
(io.cc:34-51): after validating the key and normalizing it with
`key_.back()` (an out-of-bounds read when `key` is empty, hence `none`),
parameters first and then lookup parameters, each with the normalized key
prefix plus the entity's name stripped of the model's own full name by
`substr` — which throws (hence `none`) when an entity's name is shorter
than the full name; bytes of records already written before such an abort
do not form a complete file and are not modelled. -/
def saveModelRecords (m : Model) (key : Str) : Option (List Rec) :=
  if valid_pc_key key = false then none
  else
    match keyNormalize key with
    | none => none
    | some key_ =>
      if key.length = 0 then
        some
          (m.storage.params.map (fun p => saveParamRecord p key) ++
            m.storage.lookup_params.map (fun q => saveLookupRecord q key))
      else
        match mapSaveParams m.fullname.length key_ m.storage.params,
            mapSaveLookups m.fullname.length key_ m.storage.lookup_params with
        | some prs, some lrs => some (prs ++ lrs)
        | _, _ => none

/-- `TextFileSaver::save(const ParameterCollection&, key)`: the bytes
appended to the output stream. -/
def saveModel (m : Model) (key : Str) : Option Str :=
  (saveModelRecords m key).map serializeRecs

/-- `std::getline` on an input stream at byte position `pos`: fails at end of
stream, otherwise yields the line up to (not including) the next newline and
the position just past that newline (or end of data). -/
def getline (s : Str) (pos : Nat) : Option (Str × Nat) :=
  let rest := s.drop pos
  if rest.isEmpty then none
  else
    let line := rest.takeWhile (fun c => c != '\n')
    some (line, pos + line.length + (if line.length < rest.length then 1 else 0))

/-- An unchecked `getline` as used for payload lines (io.cc:135,137): on
failure the line is left empty and the position unchanged. -/
def getlineOrEmpty (s : Str) (pos : Nat) : Str × Nat :=
  match getline s pos with
  | none => ([], pos)
  | some lp => lp

/-- The header-scan variables of the loader loops, declared once outside the
loop in the source (io.cc:94-96) and therefore persisting across
iterations. -/
structure HVars where
  type : Str
  name : Str
  dim : Dim
  byte_count : Nat
deriving DecidableEq

/-- Initial values: empty strings, default-constructed `Dim` (no
dimensions), `byte_count = 0`. -/
def hv0 : HVars := ⟨[], [], [], 0⟩

/-- One header parse `iss >> type >> name >> dim >> byte_count`
(io.cc:104): sequential whitespace-token extraction with C++ stream
semantics — a variable whose extraction is never successfully attempted
keeps its previous value; a failed numeric extraction (C++11) writes `0`. -/
def parseHeaderInto (hv : HVars) (line : Str) : HVars :=
  match words line with
  | [] => hv
  | [t] => { hv with type := t }
  | [t, n] => { hv with type := t, name := n }
  | t :: n :: d :: rest =>
    match parseDim d with
    | none => { hv with type := t, name := n }
    | some dv =>
      match rest with
      | [] => { hv with type := t, name := n, dim := dv }
      | b :: _ =>
        match parseNat b with
        | some bv => { hv with type := t, name := n, dim := dv, byte_count := bv }
        | none => { hv with type := t, name := n, dim := dv, byte_count := 0 }

theorem drop_add (s : Str) (pos k : Nat) : s.drop (pos + k) = (s.drop pos).drop k := by
  rw [List.drop_drop, Nat.add_comm]

theorem takeWhile_line (l rest : Str) (hl : ∀ c ∈ l, c ≠ '\n') :
    (l ++ '\n' :: rest).takeWhile (fun c => c != '\n') = l := by
  induction l with
  | nil => simp [List.takeWhile]
  | cons c cs ih =>
    have hc : (c != '\n') = true := by
      simpa using hl c (by simp)
    simp only [List.cons_append, List.takeWhile_cons, hc, if_true]
    rw [ih (fun x hx => hl x (by simp [hx]))]

theorem getline_line {s : Str} {pos : Nat} {l rest : Str}
    (h : s.drop pos = l ++ '\n' :: rest) (hl : ∀ c ∈ l, c ≠ '\n') :
    getline s pos = some (l, pos + l.length + 1) ∧ s.drop (pos + l.length + 1) = rest := by
  constructor
  · unfold getline
    rw [h]
    have hne : (l ++ '\n' :: rest).isEmpty = false := by
      cases l <;> simp
    rw [if_neg (by simp [hne])]
    rw [takeWhile_line l rest hl]
    have hlt : l.length < (l ++ '\n' :: rest).length := by
      simp
    simp [hlt]
  · have harith : pos + l.length + 1 = pos + (l.length + 1) := by omega
    rw [harith, drop_add, h]
    have h2 : (l ++ '\n' :: rest).drop (l.length + 1) =
        ((l ++ '\n' :: rest).drop l.length).drop 1 := by
      rw [List.drop_drop, Nat.add_comm]
    rw [h2, List.drop_left]
    rfl

theorem getline_none {s : Str} {pos : Nat} (h : s.drop pos = []) : getline s pos = none := by
  unfold getline
  rw [h]
  rfl

theorem tokenOk_no_ws {t : Str} (ht : tokenOk t = true) : ∀ c ∈ t, isWs c = false := by
  intro c hc
  have := (Bool.and_eq_true _ _).mp ht
  have h2 := List.all_eq_true.mp this.2 c hc
  simpa using h2

theorem headerStr_no_nl {r : Rec} (hw : WFRec r = true) : ∀ c ∈ headerStr r, c ≠ '\n' := by
  unfold WFRec at hw
  rw [Bool.and_eq_true, Bool.and_eq_true, Bool.and_eq_true] at hw
  have htag : tokenOk r.tag = true := hw.1.1.1
  have hname : tokenOk r.name = true := hw.1.1.2
  intro c hc
  unfold headerStr at hc
  rw [List.mem_append] at hc
  rcases hc with h1 | h2
  · exact not_ws_ne_nl (tokenOk_no_ws htag c h1)
  · rcases List.mem_cons.mp h2 with rfl | h3
    · decide
    · rw [List.mem_append] at h3
      rcases h3 with h4 | h5
      · exact not_ws_ne_nl (tokenOk_no_ws hname c h4)
      · rcases List.mem_cons.mp h5 with rfl | h6
        · decide
        · rw [List.mem_append] at h6
          rcases h6 with h7 | h8
          · exact not_ws_ne_nl (tokenOk_no_ws (renderDim_tokenOk r.dims) c h7)
          · rcases List.mem_cons.mp h8 with rfl | h9
            · decide
            · exact not_ws_ne_nl (renderNat_no_ws h9)

theorem words_headerStr {r : Rec} (hw : WFRec r = true) :
    words (headerStr r) =
      [r.tag, r.name, renderDim r.dims, renderNat (payloadStr r).length] := by
  unfold WFRec at hw
  rw [Bool.and_eq_true, Bool.and_eq_true, Bool.and_eq_true] at hw
  unfold headerStr
  rw [words_sep _ _ hw.1.1.1, words_sep _ _ hw.1.1.2,
    words_sep _ _ (renderDim_tokenOk r.dims), words_single _ (renderNat_tokenOk _)]

theorem parseHeaderInto_header {r : Rec} (hw : WFRec r = true) (hv : HVars) :
    parseHeaderInto hv (headerStr r) =
      ⟨r.tag, r.name, r.dims, (payloadStr r).length⟩ := by
  unfold parseHeaderInto
  rw [words_headerStr hw]
  simp only [parseDim_renderDim, parseNat_renderNat]

/-- The fatal error conditions of the loader (each `DYNET_RUNTIME_ERR` /
`DYNET_INVALID_ARG` site), carrying the data the corresponding message
embeds. `oobRead` stands for the undefined out-of-bounds `back()` read on an
empty key; `fuelOut` is the (never reached) fuel-exhaustion marker of the
embedding. -/
inductive LoadErr where
  | oobRead : LoadErr
  | invalidKey : LoadErr
  | tooManyParams (name : Str) : LoadErr
  | tooManyLookups (name : Str) : LoadErr
  | dimMismatchParam (name : Str) (fileDim targetDim : Dim) : LoadErr
  | dimMismatchLookup (name : Str) (fileDim targetDim : Dim) : LoadErr
  | badSpec (line : Str) : LoadErr
  | countMismatch (pGot lGot pExp lExp : Nat) : LoadErr
  | populateMismatchParam (targetDim fileDim : Dim) : LoadErr
  | populateMismatchLookup (targetDim fileDim : Dim) : LoadErr
  | notFound (key : Str) : LoadErr
  | fuelOut : LoadErr
deriving DecidableEq

/-- Modelled from the spec: `TensorTools::set_elements` (not under `src/`)
bulk-overwrites a tensor's elements from a flat numeric sequence, writing
`v.size()` elements (the tensor's extent bounds the write). -/
def set_elements (tensor v : List Nat) : List Nat :=
  v.take tensor.length ++ tensor.drop v.length

theorem set_elements_eq_of_length {tensor v : List Nat} (h : tensor.length = v.length) :
    set_elements tensor v = v := by
  unfold set_elements
  rw [h, List.take_length, ← h, List.drop_length, List.append_nil]

/-- The scan loop of `TextFileLoader::populate(ParameterCollection&, key)`
(io.cc:103-139), one constructor case per iteration outcome.  State: byte
position, persistent header variables, persistent `values` vector, the
parameter/lookup consumption counters `param_id`/`lookup_id`, and the
storage being mutated in place.  Errors carry the storage as already
mutated when the operation aborts. -/
def populateLoop (s key key_ : Str) :
    Nat → Nat → HVars → List Nat → Nat → Nat → ParameterCollectionStorage →
      Except (LoadErr × ParameterCollectionStorage) ParameterCollectionStorage
  | 0, _, _, _, _, _, st => .error (.fuelOut, st)
  | fuel + 1, pos, hv, values, pid, lid, st =>
    match getline s pos with
    | none =>
      if pid = st.params.length ∧ lid = st.lookup_params.length then .ok st
      else .error (.countMismatch pid lid st.params.length st.lookup_params.length, st)
    | some (line, pos1) =>
      let hv1 := parseHeaderInto hv line
      if key.length ≠ 0 ∧ ¬(hv1.name.take key_.length = key_) then
        populateLoop s key key_ fuel (pos1 + hv1.byte_count) hv1 values pid lid st
      else if hv1.type = pTag then
        let values1 := resizeVec values (dimSize hv1.dim)
        if h : pid < st.params.length then
          let param := st.params.get ⟨pid, h⟩
          if ¬(param.dim = hv1.dim) then
            .error (.dimMismatchParam hv1.name hv1.dim param.dim, st)
          else
            let lp1 := getlineOrEmpty s pos1
            let values2 := parseLine lp1.1 values1
            let lp2 := getlineOrEmpty s lp1.2
            let values3 := parseLine lp2.1 values2
            let param2 :=
              { param with
                values := set_elements param.values values2
                g := set_elements param.g values3 }
            populateLoop s key key_ fuel lp2.2 hv1 values3 (pid + 1) lid
              { st with params := st.params.set pid param2 }
        else .error (.tooManyParams hv1.name, st)
      else if hv1.type = lTag then
        let values1 := resizeVec values (dimSize hv1.dim)
        if h : lid < st.lookup_params.length then
          let param := st.lookup_params.get ⟨lid, h⟩
          if ¬(param.all_dim = hv1.dim) then
            .error (.dimMismatchLookup hv1.name hv1.dim param.all_dim, st)
          else
            let lp1 := getlineOrEmpty s pos1
            let values2 := parseLine lp1.1 values1
            let lp2 := getlineOrEmpty s lp1.2
            let values3 := parseLine lp2.1 values2
            let param2 :=
              { param with
                all_values := set_elements param.all_values values2
                all_grads := set_elements param.all_grads values3 }
            populateLoop s key key_ fuel lp2.2 hv1 values3 pid (lid + 1)
              { st with lookup_params := st.lookup_params.set lid param2 }
        else .error (.tooManyLookups hv1.name, st)
      else .error (.badSpec line, st)

/-- `TextFileLoader::populate(ParameterCollection&, key)` (io.cc:91-144) on
file content `s`: normalize the key with `key_.back()` (out-of-bounds on the
empty key), then scan the whole stream. -/
def populateModel (s : Str) (st0 : ParameterCollectionStorage) (key : Str) :
    Except (LoadErr × ParameterCollectionStorage) ParameterCollectionStorage :=
  match keyNormalize key with
  | none => .error (.oobRead, st0)
  | some key_ => populateLoop s key key_ (s.length + 1) 0 hv0 [] 0 0 st0

/-- The shared scan of the four single-entity read operations
(io.cc:155-170, 183-198, 211-226, 239-254): read a header line, return the
parsed header and the position just after it when both the tag and the key
match exactly, otherwise seek `byte_count` bytes past the header and
continue. -/
def scanLoop (s tag key : Str) : Nat → Nat → HVars → Option (HVars × Nat)
  | 0, _, _ => none
  | fuel + 1, pos, hv =>
    match getline s pos with
    | none => none
    | some (line, pos1) =>
      let hv1 := parseHeaderInto hv line
      if hv1.type = tag ∧ hv1.name = key then some (hv1, pos1)
      else scanLoop s tag key fuel (pos1 + hv1.byte_count) hv1

/-- The two payload reads of a matched single-entity operation: a fresh
`vector<float> values(n)` of zeros, a line parsed into it, and a second line
parsed into the result of the first (the same local vector is reused,
io.cc:160-164 etc.). -/
def readTwoLines (s : Str) (pos n : Nat) : List Nat × List Nat :=
  let v0 : List Nat := List.replicate n 0
  let lp1 := getlineOrEmpty s pos
  let v1 := parseLine lp1.1 v0
  let lp2 := getlineOrEmpty s lp1.2
  let v2 := parseLine lp2.1 v1
  (v1, v2)

/-- `TextFileLoader::populate(Parameter&, key)` (io.cc:146-172).  Errors
carry the parameter state at abort time (never modified before success). -/
def populateParam (s : Str) (param : ParameterStorage) (key : Str) :
    Except (LoadErr × ParameterStorage) ParameterStorage :=
  if key = [] then .error (.invalidKey, param)
  else
    match scanLoop s pTag key (s.length + 1) 0 hv0 with
    | none => .error (.notFound key, param)
    | some (hv, pos1) =>
      if ¬(param.dim = hv.dim) then .error (.populateMismatchParam param.dim hv.dim, param)
      else
        let vv := readTwoLines s pos1 (dimSize hv.dim)
        .ok
          { param with
            values := set_elements param.values vv.1
            g := set_elements param.g vv.2 }

/-- `TextFileLoader::populate(LookupParameter&, key)` (io.cc:174-200). -/
def populateLookup (s : Str) (param : LookupParameterStorage) (key : Str) :
    Except (LoadErr × LookupParameterStorage) LookupParameterStorage :=
  if key = [] then .error (.invalidKey, param)
  else
    match scanLoop s lTag key (s.length + 1) 0 hv0 with
    | none => .error (.notFound key, param)
    | some (hv, pos1) =>
      if ¬(param.all_dim = hv.dim) then
        .error (.populateMismatchLookup param.all_dim hv.dim, param)
      else
        let vv := readTwoLines s pos1 (dimSize hv.dim)
        .ok
          { param with
            all_values := set_elements param.all_values vv.1
            all_grads := set_elements param.all_grads vv.2 }

/-- Modelled from the spec: the `ParameterCollection::add_parameters`
factory (not under `src/`): "allocate a new Parameter of a given shape",
returning a handle whose storage the core may write into; its name starts
empty and its arrays zero-initialized (the loader overwrites them). -/
def add_parameters (st : ParameterCollectionStorage) (d : Dim) :
    ParameterStorage × ParameterCollectionStorage :=
  let p : ParameterStorage :=
    { name := []
      dim := d
      values := List.replicate (dimSize d) 0
      g := List.replicate (dimSize d) 0 }
  (p, { st with params := st.params ++ [p] })

/-- Modelled from the spec: `ParameterCollection::add_lookup_parameters`
(not under `src/`): "allocate a new Lookup Parameter given row count and
per-row shape"; the full shape `all_dim` is the per-row shape with the row
count appended as trailing extent. -/
def add_lookup_parameters (st : ParameterCollectionStorage) (rows : Nat) (d : Dim) :
    LookupParameterStorage × ParameterCollectionStorage :=
  let q : LookupParameterStorage :=
    { name := []
      dim := d
      all_dim := d ++ [rows]
      all_values := List.replicate (dimSize (d ++ [rows])) 0
      all_grads := List.replicate (dimSize (d ++ [rows])) 0 }
  (q, { st with lookup_params := st.lookup_params ++ [q] })

/-- `TextFileLoader::load_param` (io.cc:202-228): on an exact tag/key match,
allocate a new parameter of the declared shape through the model factory,
set its name to the record key and fill its arrays.  The returned handle
aliases the collection's new last slot, so the final collection carries the
filled entity. -/
def load_param (s : Str) (st : ParameterCollectionStorage) (key : Str) :
    Except (LoadErr × ParameterCollectionStorage)
      (ParameterStorage × ParameterCollectionStorage) :=
  if key = [] then .error (.invalidKey, st)
  else
    match scanLoop s pTag key (s.length + 1) 0 hv0 with
    | none => .error (.notFound key, st)
    | some (hv, pos1) =>
      let p0 := (add_parameters st hv.dim).1
      let vv := readTwoLines s pos1 (dimSize hv.dim)
      let p1 :=
        { p0 with
          name := hv.name
          values := set_elements p0.values vv.1
          g := set_elements p0.g vv.2 }
      .ok (p1, { st with params := st.params ++ [p1] })

/-- `TextFileLoader::load_lookup_param` (io.cc:230-257): on a match, the
local `values` vector is sized with the full declared element count, then
the trailing extent is split off (`size = dim[dim.nd-1]; dim.nd--;` — an
out-of-bounds read when the declared shape has no dimensions) as the row
count for the factory; the record key becomes the new entity's name. -/
def load_lookup_param (s : Str) (st : ParameterCollectionStorage) (key : Str) :
    Except (LoadErr × ParameterCollectionStorage)
      (LookupParameterStorage × ParameterCollectionStorage) :=
  if key = [] then .error (.invalidKey, st)
  else
    match scanLoop s lTag key (s.length + 1) 0 hv0 with
    | none => .error (.notFound key, st)
    | some (hv, pos1) =>
      let n := dimSize hv.dim
      match hv.dim.getLast? with
      | none => .error (.oobRead, st)
      | some rows =>
        let d := hv.dim.dropLast
        let q0 := (add_lookup_parameters st rows d).1
        let vv := readTwoLines s pos1 n
        let q1 :=
          { q0 with
            name := hv.name
            all_values := set_elements q0.all_values vv.1
            all_grads := set_elements q0.all_grads vv.2 }
        .ok (q1, { st with lookup_params := st.lookup_params ++ [q1] })

/-- Modelled from the spec (reference semantics for `populate_model`, §4.4):
iterate the matching records in file order; dispatch on the tag, taking the
next unconsumed Parameter (resp. Lookup Parameter) in stored order;
validate that the record's shape equals the target's shape; overwrite
values and gradients in place; any other tag is a fatal error naming the
header line; after the scan the consumed counts must equal the model's
totals. -/
def refLoadAux :
    ParameterCollectionStorage → Nat → Nat → List Rec →
      Except (LoadErr × ParameterCollectionStorage) ParameterCollectionStorage
  | st, pid, lid, [] =>
    if pid = st.params.length ∧ lid = st.lookup_params.length then .ok st
    else .error (.countMismatch pid lid st.params.length st.lookup_params.length, st)
  | st, pid, lid, r :: rs =>
    if r.tag = pTag then
      if h : pid < st.params.length then
        let p := st.params.get ⟨pid, h⟩
        if ¬(p.dim = r.dims) then .error (.dimMismatchParam r.name r.dims p.dim, st)
        else
          refLoadAux
            { st with
              params := st.params.set pid
                { p with
                  values := set_elements p.values r.vals
                  g := set_elements p.g r.grads } }
            (pid + 1) lid rs
      else .error (.tooManyParams r.name, st)
    else if r.tag = lTag then
      if h : lid < st.lookup_params.length then
        let q := st.lookup_params.get ⟨lid, h⟩
        if ¬(q.all_dim = r.dims) then .error (.dimMismatchLookup r.name r.dims q.all_dim, st)
        else
          refLoadAux
            { st with
              lookup_params := st.lookup_params.set lid
                { q with
                  all_values := set_elements q.all_values r.vals
                  all_grads := set_elements q.all_grads r.grads } }
            pid (lid + 1) rs
      else .error (.tooManyLookups r.name, st)
    else .error (.badSpec (headerStr r), st)

/-- First record with the given tag and exactly the given key, in file
order — what the single-entity scans search for. -/
def findMatch (rs : List Rec) (tag key : Str) : Option Rec :=
  rs.find? (fun r => r.tag == tag && r.name == key)

theorem renderVec_no_nl (v : List Nat) : ∀ c ∈ renderVec v, c ≠ '\n' := by
  induction v with
  | nil => intro c hc; simp [renderVec] at hc
  | cons x xs ih =>
    cases xs with
    | nil =>
      intro c hc
      exact not_ws_ne_nl (renderNat_no_ws hc)
    | cons y ys =>
      intro c hc
      have hc' : c ∈ renderNat x ++ ' ' :: renderVec (y :: ys) := hc
      rw [List.mem_append] at hc'
      rcases hc' with h1 | h2
      · exact not_ws_ne_nl (renderNat_no_ws h1)
      · rcases List.mem_cons.mp h2 with rfl | h3
        · decide
        · exact ih c h3

theorem payloadStr_decomp (r : Rec) (tail : Str) :
    payloadStr r ++ tail = renderVec r.vals ++ '\n' :: (renderVec r.grads ++ '\n' :: tail) := by
  unfold payloadStr
  simp [List.append_assoc]

theorem payloadStr_length (r : Rec) :
    (payloadStr r).length =
      (renderVec r.vals).length + 1 + ((renderVec r.grads).length + 1) := by
  unfold payloadStr
  simp
  omega

theorem payload_reads {s : Str} {pos1 : Nat} {r : Rec} {tail : Str}
    (hdrop : s.drop pos1 = payloadStr r ++ tail) :
    getlineOrEmpty s pos1 = (renderVec r.vals, pos1 + (renderVec r.vals).length + 1) ∧
    getlineOrEmpty s (pos1 + (renderVec r.vals).length + 1) =
      (renderVec r.grads, pos1 + (payloadStr r).length) ∧
    s.drop (pos1 + (payloadStr r).length) = tail := by
  rw [payloadStr_decomp] at hdrop
  obtain ⟨hg1, hd2⟩ := getline_line hdrop (renderVec_no_nl r.vals)
  obtain ⟨hg2, hd3⟩ := getline_line hd2 (renderVec_no_nl r.grads)
  have harith : pos1 + (renderVec r.vals).length + 1 + (renderVec r.grads).length + 1 =
      pos1 + (payloadStr r).length := by
    rw [payloadStr_length]
    omega
  refine ⟨by simp [getlineOrEmpty, hg1], ?_, ?_⟩
  · rw [getlineOrEmpty, hg2, harith]
  · rw [← harith]
    exact hd3

theorem isPre_iff_take (pre s : Str) : pre.isPrefixOf s = true ↔ s.take pre.length = pre := by
  rw [ List.isPrefixOf_iff_prefix, List.prefix_iff_eq_take]
  constructor <;> intro h <;> exact h.symm

theorem WFFile_cons {r : Rec} {rs : List Rec} (h : WFFile (r :: rs) = true) :
    WFRec r = true ∧ WFFile rs = true := by
  unfold WFFile at h ⊢
  rw [List.all_cons, Bool.and_eq_true] at h
  exact h

theorem serializeRec_ne_nil (r : Rec) : serializeRec r ≠ [] := by
  unfold serializeRec headerStr
  cases r.tag <;> simp

theorem serializeRecs_length_ge (rs : List Rec) : rs.length ≤ (serializeRecs rs).length := by
  induction rs with
  | nil => simp [serializeRecs]
  | cons r rest ih =>
    show rest.length + 1 ≤ (serializeRec r ++ serializeRecs rest).length
    rw [List.length_append]
    have : 1 ≤ (serializeRec r).length := by
      cases hs : serializeRec r with
      | nil => exact absurd hs (serializeRec_ne_nil r)
      | cons a l => simp
    omega

theorem serializeRec_decomp (r : Rec) (tail : Str) :
    serializeRec r ++ tail = headerStr r ++ '\n' :: (payloadStr r ++ tail) := by
  unfold serializeRec
  simp [List.append_assoc]

theorem WFRec_parts {r : Rec} (h : WFRec r = true) :
    tokenOk r.tag = true ∧ tokenOk r.name = true ∧
      r.vals.length = dimSize r.dims ∧ r.grads.length = dimSize r.dims := by
  unfold WFRec at h
  rw [Bool.and_eq_true, Bool.and_eq_true, Bool.and_eq_true] at h
  refine ⟨h.1.1.1, h.1.1.2, ?_, ?_⟩
  · simpa using h.1.2
  · simpa using h.2

/-- Adequacy of the byte-level scan: on a serialized well-formed record
list, the populate loop behaves exactly like the record-level reference
semantics applied to the records whose key starts with the normalized
prefix (for a non-empty requested key). -/
theorem populateLoop_adequate (key key_ : Str) (hkey : key.length ≠ 0) :
    ∀ (rs : List Rec) (s : Str) (fuel pos : Nat) (hv : HVars) (values : List Nat)
      (pid lid : Nat) (st : ParameterCollectionStorage),
      WFFile rs = true → s.drop pos = serializeRecs rs → rs.length < fuel →
      populateLoop s key key_ fuel pos hv values pid lid st =
        refLoadAux st pid lid (rs.filter (fun r => key_.isPrefixOf r.name)) := by
  intro rs
  induction rs with
  | nil =>
    intro s fuel pos hv values pid lid st hwf hdrop hfuel
    cases fuel with
    | zero => omega
    | succ f =>
      have hg : getline s pos = none := getline_none (by rw [hdrop]; rfl)
      simp only [populateLoop, hg, List.filter_nil, refLoadAux]
  | cons r rest ih =>
    intro s fuel pos hv values pid lid st hwf hdrop hfuel
    cases fuel with
    | zero => omega
    | succ f =>
    obtain ⟨hwfr, hwfrest⟩ := WFFile_cons hwf
    obtain ⟨-, -, hvlen, hglen⟩ := WFRec_parts hwfr
    have hdrop2 : s.drop pos = headerStr r ++ '\n' :: (payloadStr r ++ serializeRecs rest) := by
      rw [hdrop]
      show serializeRec r ++ serializeRecs rest = _
      exact serializeRec_decomp r _
    obtain ⟨hg, hd1⟩ := getline_line hdrop2 (headerStr_no_nl hwfr)
    have hparse := parseHeaderInto_header hwfr hv
    have hfuel2 : rest.length < f := by
      simp only [List.length_cons] at hfuel
      omega
    simp only [populateLoop, hg, hparse]
    by_cases hpre : key_.isPrefixOf r.name = true
    · have htake : r.name.take key_.length = key_ := (isPre_iff_take _ _).mp hpre
      rw [List.filter_cons_of_pos (by simpa using hpre)]
      rw [if_neg (by simp [htake])]
      simp only [refLoadAux]
      by_cases htag : r.tag = pTag
      · rw [if_pos htag, if_pos htag]
        by_cases hb : pid < st.params.length
        · rw [dif_pos hb, dif_pos hb]
          by_cases hdim : (st.params.get ⟨pid, hb⟩).dim = r.dims
          · rw [if_neg (not_not_intro hdim), if_neg (not_not_intro hdim)]
            obtain ⟨hr1, hr2, hr3⟩ := payload_reads hd1
            simp only [hr1, hr2]
            rw [parseLine_renderVec r.vals _ (by rw [resizeVec_length, hvlen]),
              parseLine_renderVec r.grads r.vals (by rw [hvlen, hglen])]
            exact ih s f _ _ r.grads (pid + 1) lid _ hwfrest hr3 hfuel2
          · rw [if_pos (by simpa using hdim), if_pos (by simpa using hdim)]
        · rw [dif_neg hb, dif_neg hb]
      · rw [if_neg htag, if_neg htag]
        by_cases htag2 : r.tag = lTag
        · rw [if_pos htag2, if_pos htag2]
          by_cases hb : lid < st.lookup_params.length
          · rw [dif_pos hb, dif_pos hb]
            by_cases hdim : (st.lookup_params.get ⟨lid, hb⟩).all_dim = r.dims
            · rw [if_neg (not_not_intro hdim), if_neg (not_not_intro hdim)]
              obtain ⟨hr1, hr2, hr3⟩ := payload_reads hd1
              simp only [hr1, hr2]
              rw [parseLine_renderVec r.vals _ (by rw [resizeVec_length, hvlen]),
                parseLine_renderVec r.grads r.vals (by rw [hvlen, hglen])]
              exact ih s f _ _ r.grads pid (lid + 1) _ hwfrest hr3 hfuel2
            · rw [if_pos (by simpa using hdim), if_pos (by simpa using hdim)]
          · rw [dif_neg hb, dif_neg hb]
        · rw [if_neg htag2, if_neg htag2]
    · have htake : ¬(r.name.take key_.length = key_) := by
        rw [← isPre_iff_take]
        simpa using hpre
      rw [List.filter_cons_of_neg (by simpa using hpre)]
      rw [if_pos ⟨hkey, htake⟩]
      have hdrop3 :
          s.drop (pos + (headerStr r).length + 1 + (payloadStr r).length) =
            serializeRecs rest := by
        rw [drop_add, hd1, List.drop_left]
      exact ih s f _ _ values pid lid st hwfrest hdrop3 hfuel2

/-- The normalized prefix a non-empty key produces: append `'/'` unless the
key already ends in `'/'` (io.cc:38-39, 101-102). -/
def normKey (key : Str) : Str :=
  if key.getLast? = some '/' then key else key ++ ['/']

theorem keyNormalize_of_ne_nil {key : Str} (h : key ≠ []) :
    keyNormalize key = some (normKey key) := by
  unfold keyNormalize normKey
  cases hlast : key.getLast? with
  | none =>
    rw [List.getLast?_eq_none_iff] at hlast
    exact absurd hlast h
  | some c =>
    by_cases hc : c = '/'
    · subst hc
      simp
    · simp [hc, Ne.symm]

theorem length_ne_zero_of_ne_nil {key : Str} (h : key ≠ []) : key.length ≠ 0 := by
  cases key with
  | nil => exact absurd rfl h
  | cons a l => simp

/-- `populate(ParameterCollection&, key)` on a serialized well-formed file
with a non-empty key equals the reference semantics on the records whose
key starts with the normalized prefix. -/
theorem populateModel_adequate (rs : List Rec) (st : ParameterCollectionStorage) (key : Str)
    (hwf : WFFile rs = true) (hkey : key ≠ []) :
    populateModel (serializeRecs rs) st key =
      refLoadAux st 0 0 (rs.filter (fun r => (normKey key).isPrefixOf r.name)) := by
  unfold populateModel
  rw [keyNormalize_of_ne_nil hkey]
  exact populateLoop_adequate key (normKey key) (length_ne_zero_of_ne_nil hkey) rs
    (serializeRecs rs) ((serializeRecs rs).length + 1) 0 hv0 [] 0 0 st hwf (by simp)
    (by have := serializeRecs_length_ge rs; omega)

theorem get_append_cons (pre : List α) (x : α) (l : List α)
    (h : pre.length < (pre ++ x :: l).length) :
    (pre ++ x :: l).get ⟨pre.length, h⟩ = x := by
  induction pre with
  | nil => rfl
  | cons a as ih => exact ih (by simp)

theorem set_append_cons (pre : List α) (x v : α) (l : List α) :
    (pre ++ x :: l).set pre.length v = pre ++ v :: l := by
  induction pre with
  | nil => rfl
  | cons a as ih => simp [List.set, ih]

theorem drop_set_succ (l : List α) (i : Nat) (v : α) :
    (l.set i v).drop (i + 1) = l.drop (i + 1) := by
  induction l generalizing i with
  | nil => simp
  | cons a as ih =>
    cases i with
    | zero => simp
    | succ j =>
      simp only [List.set, List.drop_succ_cons]
      exact ih j

theorem get?_set_ne (l : List α) (i j : Nat) (v : α) (h : i ≠ j) :
    (l.set i v).get? j = l.get? j := by
  induction l generalizing i j with
  | nil => simp
  | cons a as ih =>
    cases i with
    | zero =>
      cases j with
      | zero => exact absurd rfl h
      | succ j2 => simp [List.set]
    | succ i2 =>
      cases j with
      | zero => simp [List.set]
      | succ j2 =>
        simp only [List.set, List.get?]
        exact ih i2 j2 (by omega)

theorem drop_eq_get_cons {l : List α} {n : Nat} (h : n < l.length) :
    l.drop n = l.get ⟨n, h⟩ :: l.drop (n + 1) := by
  induction l generalizing n with
  | nil => simp at h
  | cons a as ih =>
    cases n with
    | zero => simp
    | succ m =>
      simp only [List.drop_succ_cons, List.get]
      exact ih (by simpa using h)

/-- Overwriting a parameter's values and gradients with those of a source
parameter — the net effect of a successful populate step. -/
def copyVals (dst src : ParameterStorage) : ParameterStorage :=
  { dst with values := src.values, g := src.g }

def copyValsL (dst src : LookupParameterStorage) : LookupParameterStorage :=
  { dst with all_values := src.all_values, all_grads := src.all_grads }

theorem refLoadAux_params_phase (mkrec : ParameterStorage → Rec)
    (hmk : ∀ p, (mkrec p).tag = pTag ∧ (mkrec p).dims = p.dim ∧
      (mkrec p).vals = p.values ∧ (mkrec p).grads = p.g) :
    ∀ (ps₁ ps₂ pre : List ParameterStorage) (lps : List LookupParameterStorage)
      (lid : Nat) (extra : List Rec),
      ps₂.length = ps₁.length →
      (∀ i p₂ p₁, ps₂.get? i = some p₂ → ps₁.get? i = some p₁ →
        p₂.dim = p₁.dim ∧ p₂.values.length = p₁.values.length ∧
          p₂.g.length = p₁.g.length) →
      refLoadAux ⟨pre ++ ps₂, lps⟩ pre.length lid (ps₁.map mkrec ++ extra) =
        refLoadAux ⟨pre ++ List.zipWith copyVals ps₂ ps₁, lps⟩
          (pre.length + ps₁.length) lid extra := by
  intro ps₁
  induction ps₁ with
  | nil =>
    intro ps₂ pre lps lid extra hlen hfacts
    cases ps₂ with
    | nil => simp
    | cons a l => simp at hlen
  | cons p₁ ps₁' ih =>
    intro ps₂ pre lps lid extra hlen hfacts
    cases ps₂ with
    | nil => simp at hlen
    | cons p₂ ps₂' =>
      obtain ⟨hdim, hvlen, hglen⟩ := hfacts 0 p₂ p₁ rfl rfl
      simp only [List.map_cons, List.cons_append, List.append_eq, refLoadAux]
      rw [if_pos (hmk p₁).1]
      have hlt : pre.length < (pre ++ p₂ :: ps₂').length := by
        simp
      rw [dif_pos (by simpa using hlt)]
      have hget : (pre ++ p₂ :: ps₂').get ⟨pre.length, hlt⟩ = p₂ := get_append_cons _ _ _ _
      simp only [hget]
      have hdim2 : p₂.dim = (mkrec p₁).dims := by rw [(hmk p₁).2.1, hdim]
      rw [if_neg (not_not_intro hdim2)]
      have hset :
          set_elements p₂.values (mkrec p₁).vals = p₁.values := by
        rw [(hmk p₁).2.2.1]
        exact set_elements_eq_of_length hvlen
      have hsetg :
          set_elements p₂.g (mkrec p₁).grads = p₁.g := by
        rw [(hmk p₁).2.2.2]
        exact set_elements_eq_of_length hglen
      rw [hset, hsetg, set_append_cons]
      have hcopy :
          ({ p₂ with values := p₁.values, g := p₁.g } : ParameterStorage) =
            copyVals p₂ p₁ := rfl
      rw [hcopy]
      have hassoc : pre ++ copyVals p₂ p₁ :: ps₂' = (pre ++ [copyVals p₂ p₁]) ++ ps₂' := by
        simp
      have hplen : pre.length + 1 = (pre ++ [copyVals p₂ p₁]).length := by
        simp
      rw [hassoc, hplen,
        ih ps₂' (pre ++ [copyVals p₂ p₁]) lps lid extra (by simpa using hlen)
          (fun i q₂ q₁ h2 h1 => hfacts (i + 1) q₂ q₁ (by simpa using h2) (by simpa using h1))]
      have harr : (pre ++ [copyVals p₂ p₁]) ++ List.zipWith copyVals ps₂' ps₁' =
          pre ++ List.zipWith copyVals (p₂ :: ps₂') (p₁ :: ps₁') := by
        simp
      rw [harr]
      have harith : (pre ++ [copyVals p₂ p₁]).length + ps₁'.length =
          pre.length + (p₁ :: ps₁').length := by
        simp
        omega
      rw [harith]

theorem refLoadAux_lookups_phase (mkrec : LookupParameterStorage → Rec)
    (hmk : ∀ q, (mkrec q).tag = lTag ∧ (mkrec q).dims = q.all_dim ∧
      (mkrec q).vals = q.all_values ∧ (mkrec q).grads = q.all_grads) :
    ∀ (ls₁ ls₂ pre : List LookupParameterStorage) (ps : List ParameterStorage)
      (pid : Nat),
      ls₂.length = ls₁.length →
      (∀ i q₂ q₁, ls₂.get? i = some q₂ → ls₁.get? i = some q₁ →
        q₂.all_dim = q₁.all_dim ∧ q₂.all_values.length = q₁.all_values.length ∧
          q₂.all_grads.length = q₁.all_grads.length) →
      refLoadAux ⟨ps, pre ++ ls₂⟩ pid pre.length (ls₁.map mkrec) =
        refLoadAux ⟨ps, pre ++ List.zipWith copyValsL ls₂ ls₁⟩
          pid (pre.length + ls₁.length) [] := by
  intro ls₁
  induction ls₁ with
  | nil =>
    intro ls₂ pre ps pid hlen hfacts
    cases ls₂ with
    | nil => simp
    | cons a l => simp at hlen
  | cons q₁ ls₁' ih =>
    intro ls₂ pre ps pid hlen hfacts
    cases ls₂ with
    | nil => simp at hlen
    | cons q₂ ls₂' =>
      obtain ⟨hdim, hvlen, hglen⟩ := hfacts 0 q₂ q₁ rfl rfl
      have hnotp : ¬((mkrec q₁).tag = pTag) := by
        rw [(hmk q₁).1]
        decide
      simp only [List.map_cons, refLoadAux]
      rw [if_neg hnotp, if_pos (hmk q₁).1]
      have hlt : pre.length < (pre ++ q₂ :: ls₂').length := by
        simp
      rw [dif_pos (by simpa using hlt)]
      have hget : (pre ++ q₂ :: ls₂').get ⟨pre.length, hlt⟩ = q₂ := get_append_cons _ _ _ _
      simp only [hget]
      have hdim2 : q₂.all_dim = (mkrec q₁).dims := by rw [(hmk q₁).2.1, hdim]
      rw [if_neg (not_not_intro hdim2)]
      have hset : set_elements q₂.all_values (mkrec q₁).vals = q₁.all_values := by
        rw [(hmk q₁).2.2.1]
        exact set_elements_eq_of_length hvlen
      have hsetg : set_elements q₂.all_grads (mkrec q₁).grads = q₁.all_grads := by
        rw [(hmk q₁).2.2.2]
        exact set_elements_eq_of_length hglen
      rw [hset, hsetg, set_append_cons]
      have hcopy :
          ({ q₂ with all_values := q₁.all_values, all_grads := q₁.all_grads } :
            LookupParameterStorage) = copyValsL q₂ q₁ := rfl
      rw [hcopy]
      have hassoc : pre ++ copyValsL q₂ q₁ :: ls₂' = (pre ++ [copyValsL q₂ q₁]) ++ ls₂' := by
        simp
      have hplen : pre.length + 1 = (pre ++ [copyValsL q₂ q₁]).length := by
        simp
      rw [hassoc, hplen,
        ih ls₂' (pre ++ [copyValsL q₂ q₁]) ps pid (by simpa using hlen)
          (fun i a₂ a₁ h2 h1 => hfacts (i + 1) a₂ a₁ (by simpa using h2) (by simpa using h1))]
      have harr : (pre ++ [copyValsL q₂ q₁]) ++ List.zipWith copyValsL ls₂' ls₁' =
          pre ++ List.zipWith copyValsL (q₂ :: ls₂') (q₁ :: ls₁') := by
        simp
      rw [harr]
      have harith : (pre ++ [copyValsL q₂ q₁]).length + ls₁'.length =
          pre.length + (q₁ :: ls₁').length := by
        simp
        omega
      rw [harith]
      simp only [refLoadAux]

theorem refLoadAux_done (st : ParameterCollectionStorage) :
    refLoadAux st st.params.length st.lookup_params.length [] = .ok st := by
  simp [refLoadAux]

/-- Adequacy of the single-key scan: on a serialized well-formed record
list it finds exactly the first record whose tag and key match, leaving the
stream at that record's payload; with no such record it reaches end of
stream and fails. -/
theorem scanLoop_adequate (tag key : Str) :
    ∀ (rs : List Rec) (s : Str) (fuel pos : Nat) (hv : HVars),
      WFFile rs = true → s.drop pos = serializeRecs rs → rs.length < fuel →
      (findMatch rs tag key = none → scanLoop s tag key fuel pos hv = none) ∧
      (∀ r : Rec, findMatch rs tag key = some r →
        ∃ pos1 tail, scanLoop s tag key fuel pos hv =
            some (⟨r.tag, r.name, r.dims, (payloadStr r).length⟩, pos1) ∧
          s.drop pos1 = payloadStr r ++ tail) := by
  intro rs
  induction rs with
  | nil =>
    intro s fuel pos hv hwf hdrop hfuel
    cases fuel with
    | zero => omega
    | succ f =>
      have hg : getline s pos = none := getline_none (by rw [hdrop]; rfl)
      constructor
      · intro _
        simp [scanLoop, hg]
      · intro r hr
        simp [findMatch] at hr
  | cons r0 rest ih =>
    intro s fuel pos hv hwf hdrop hfuel
    cases fuel with
    | zero => omega
    | succ f =>
    obtain ⟨hwfr, hwfrest⟩ := WFFile_cons hwf
    have hdrop2 : s.drop pos = headerStr r0 ++ '\n' :: (payloadStr r0 ++ serializeRecs rest) := by
      rw [hdrop]
      show serializeRec r0 ++ serializeRecs rest = _
      exact serializeRec_decomp r0 _
    obtain ⟨hg, hd1⟩ := getline_line hdrop2 (headerStr_no_nl hwfr)
    have hparse := parseHeaderInto_header hwfr hv
    have hfuel2 : rest.length < f := by
      simp only [List.length_cons] at hfuel
      omega
    by_cases hmatch : r0.tag = tag ∧ r0.name = key
    · have hfm : findMatch (r0 :: rest) tag key = some r0 := by
        unfold findMatch
        rw [List.find?_cons_of_pos]
        simp [hmatch.1, hmatch.2]
      constructor
      · intro hnone
        rw [hfm] at hnone
        cases hnone
      · intro r hr
        rw [hfm] at hr
        injection hr with hr
        subst hr
        refine ⟨pos + (headerStr r0).length + 1, serializeRecs rest, ?_, hd1⟩
        simp only [scanLoop, hg, hparse]
        rw [if_pos hmatch]
    · have hfm : findMatch (r0 :: rest) tag key = findMatch rest tag key := by
        unfold findMatch
        rw [List.find?_cons_of_neg]
        simp only [Bool.and_eq_true, beq_iff_eq]
        intro hc
        exact hmatch hc
      have hdrop3 :
          s.drop (pos + (headerStr r0).length + 1 + (payloadStr r0).length) =
            serializeRecs rest := by
        rw [drop_add, hd1, List.drop_left]
      have hstep : scanLoop s tag key (f + 1) pos hv =
          scanLoop s tag key f (pos + (headerStr r0).length + 1 + (payloadStr r0).length)
            ⟨r0.tag, r0.name, r0.dims, (payloadStr r0).length⟩ := by
        simp only [scanLoop, hg, hparse]
        rw [if_neg hmatch]
      obtain ⟨ihn, ihs⟩ := ih s f _ _ hwfrest hdrop3 hfuel2
      constructor
      · intro hnone
        rw [hfm] at hnone
        rw [hstep]
        exact ihn hnone
      · intro r hr
        rw [hfm] at hr
        obtain ⟨pos1, tail, h1, h2⟩ := ihs r hr
        exact ⟨pos1, tail, by rw [hstep]; exact h1, h2⟩

theorem readTwoLines_payload {s : Str} {pos1 : Nat} {r : Rec} {tail : Str}
    (hwf : WFRec r = true) (hdrop : s.drop pos1 = payloadStr r ++ tail) :
    readTwoLines s pos1 (dimSize r.dims) = (r.vals, r.grads) := by
  obtain ⟨-, -, hvlen, hglen⟩ := WFRec_parts hwf
  obtain ⟨hr1, hr2, -⟩ := payload_reads hdrop
  unfold readTwoLines
  simp only [hr1, hr2]
  rw [parseLine_renderVec r.vals _ (by simp [hvlen]),
    parseLine_renderVec r.grads _ (by rw [hvlen, hglen])]

theorem findMatch_facts {rs : List Rec} {tag key : Str} {r : Rec}
    (h : findMatch rs tag key = some r) : r ∈ rs ∧ r.tag = tag ∧ r.name = key := by
  unfold findMatch at h
  have hmem := List.mem_of_find?_eq_some h
  have hpred := List.find?_some h
  simp only [Bool.and_eq_true, beq_iff_eq] at hpred
  exact ⟨hmem, hpred⟩

theorem WFFile_mem {rs : List Rec} {r : Rec} (hwf : WFFile rs = true) (hr : r ∈ rs) :
    WFRec r = true := by
  unfold WFFile at hwf
  exact List.all_eq_true.mp hwf r hr

/-- Full behaviour of `populate(Parameter&, key)` on a serialized
well-formed file: first exact tag/key match decides everything. -/
theorem populateParam_char (rs : List Rec) (param : ParameterStorage) (key : Str)
    (hwf : WFFile rs = true) (hkey : key ≠ []) :
    populateParam (serializeRecs rs) param key =
      match findMatch rs pTag key with
      | none => .error (.notFound key, param)
      | some r =>
        if ¬(param.dim = r.dims) then
          .error (.populateMismatchParam param.dim r.dims, param)
        else
          .ok
            { param with
              values := set_elements param.values r.vals
              g := set_elements param.g r.grads } := by
  have hscan := scanLoop_adequate pTag key rs (serializeRecs rs)
    ((serializeRecs rs).length + 1) 0 hv0 hwf (by simp)
    (by have := serializeRecs_length_ge rs; omega)
  unfold populateParam
  rw [if_neg hkey]
  cases hfm : findMatch rs pTag key with
  | none => rw [hscan.1 hfm]
  | some r =>
    obtain ⟨pos1, tail, h1, h2⟩ := hscan.2 r hfm
    have hwfr := WFFile_mem hwf (findMatch_facts hfm).1
    rw [h1]
    simp only
    by_cases hdim : param.dim = r.dims
    · rw [if_neg (not_not_intro hdim), if_neg (not_not_intro hdim)]
      rw [readTwoLines_payload hwfr h2]
    · rw [if_pos (by simpa using hdim), if_pos (by simpa using hdim)]

/-- Full behaviour of `populate(LookupParameter&, key)` on a serialized
well-formed file. -/
theorem populateLookup_char (rs : List Rec) (param : LookupParameterStorage) (key : Str)
    (hwf : WFFile rs = true) (hkey : key ≠ []) :
    populateLookup (serializeRecs rs) param key =
      match findMatch rs lTag key with
      | none => .error (.notFound key, param)
      | some r =>
        if ¬(param.all_dim = r.dims) then
          .error (.populateMismatchLookup param.all_dim r.dims, param)
        else
          .ok
            { param with
              all_values := set_elements param.all_values r.vals
              all_grads := set_elements param.all_grads r.grads } := by
  have hscan := scanLoop_adequate lTag key rs (serializeRecs rs)
    ((serializeRecs rs).length + 1) 0 hv0 hwf (by simp)
    (by have := serializeRecs_length_ge rs; omega)
  unfold populateLookup
  rw [if_neg hkey]
  cases hfm : findMatch rs lTag key with
  | none => rw [hscan.1 hfm]
  | some r =>
    obtain ⟨pos1, tail, h1, h2⟩ := hscan.2 r hfm
    have hwfr := WFFile_mem hwf (findMatch_facts hfm).1
    rw [h1]
    simp only
    by_cases hdim : param.all_dim = r.dims
    · rw [if_neg (not_not_intro hdim), if_neg (not_not_intro hdim)]
      rw [readTwoLines_payload hwfr h2]
    · rw [if_pos (by simpa using hdim), if_pos (by simpa using hdim)]

/-- Full behaviour of `load_param` on a serialized well-formed file: on a
match, the new entity carries the record's key as name, the declared shape,
and the payload vectors, and is appended to the collection. -/
theorem load_param_char (rs : List Rec) (st : ParameterCollectionStorage) (key : Str)
    (hwf : WFFile rs = true) (hkey : key ≠ []) :
    load_param (serializeRecs rs) st key =
      match findMatch rs pTag key with
      | none => .error (.notFound key, st)
      | some r =>
        .ok (⟨r.name, r.dims, r.vals, r.grads⟩,
          { st with params := st.params ++ [⟨r.name, r.dims, r.vals, r.grads⟩] }) := by
  have hscan := scanLoop_adequate pTag key rs (serializeRecs rs)
    ((serializeRecs rs).length + 1) 0 hv0 hwf (by simp)
    (by have := serializeRecs_length_ge rs; omega)
  unfold load_param
  rw [if_neg hkey]
  cases hfm : findMatch rs pTag key with
  | none => rw [hscan.1 hfm]
  | some r =>
    obtain ⟨pos1, tail, h1, h2⟩ := hscan.2 r hfm
    have hwfr := WFFile_mem hwf (findMatch_facts hfm).1
    obtain ⟨-, -, hvlen, hglen⟩ := WFRec_parts hwfr
    rw [h1]
    simp only [add_parameters]
    rw [readTwoLines_payload hwfr h2]
    rw [set_elements_eq_of_length (by simp [hvlen]),
      set_elements_eq_of_length (by simp [hglen])]

/-- Full behaviour of `load_lookup_param` on a serialized well-formed file:
on a match, split the trailing declared extent off as the row count (an
out-of-bounds read when the declared shape is empty), allocate, name and
fill the new entity, and append it to the collection. -/
theorem load_lookup_param_char (rs : List Rec) (st : ParameterCollectionStorage) (key : Str)
    (hwf : WFFile rs = true) (hkey : key ≠ []) :
    load_lookup_param (serializeRecs rs) st key =
      match findMatch rs lTag key with
      | none => .error (.notFound key, st)
      | some r =>
        match r.dims.getLast? with
        | none => .error (.oobRead, st)
        | some rows =>
          .ok (⟨r.name, r.dims.dropLast, r.dims.dropLast ++ [rows], r.vals, r.grads⟩,
            { st with lookup_params :=
                st.lookup_params ++
                  [⟨r.name, r.dims.dropLast, r.dims.dropLast ++ [rows], r.vals, r.grads⟩] }) := by
  have hscan := scanLoop_adequate lTag key rs (serializeRecs rs)
    ((serializeRecs rs).length + 1) 0 hv0 hwf (by simp)
    (by have := serializeRecs_length_ge rs; omega)
  unfold load_lookup_param
  rw [if_neg hkey]
  cases hfm : findMatch rs lTag key with
  | none => rw [hscan.1 hfm]
  | some r =>
    obtain ⟨pos1, tail, h1, h2⟩ := hscan.2 r hfm
    have hwfr := WFFile_mem hwf (findMatch_facts hfm).1
    obtain ⟨-, -, hvlen, hglen⟩ := WFRec_parts hwfr
    rw [h1]
    simp only
    cases hlast : r.dims.getLast? with
    | none => rfl
    | some rows =>
      have hnn : r.dims ≠ [] := by
        intro hc
        rw [hc] at hlast
        cases hlast
      have hrebuild : r.dims.dropLast ++ [rows] = r.dims := by
        have hgl : r.dims.getLast hnn = rows := by
          rw [List.getLast?_eq_getLast r.dims hnn] at hlast
          injection hlast
        rw [← hgl]
        exact List.dropLast_append_getLast hnn
      simp only [add_lookup_parameters]
      rw [readTwoLines_payload hwfr h2]
      rw [set_elements_eq_of_length (by simp [hrebuild, hvlen]),
        set_elements_eq_of_length (by simp [hrebuild, hglen])]

/-- Well-formedness of a stored parameter as the system assumes it: a
whitespace-free name (names are keys, §3) and arrays matching the shape. -/
def WFParam (p : ParameterStorage) : Bool :=
  p.name.all (fun c => !isWs c) && (p.values.length == dimSize p.dim) &&
    (p.g.length == dimSize p.dim)

def WFLookup (q : LookupParameterStorage) : Bool :=
  q.name.all (fun c => !isWs c) && (q.all_values.length == dimSize q.all_dim) &&
    (q.all_grads.length == dimSize q.all_dim)

def WFStorage (st : ParameterCollectionStorage) : Bool :=
  st.params.all WFParam && st.lookup_params.all WFLookup

def WFModel (m : Model) : Bool := WFStorage m.storage

theorem WFParam_parts {p : ParameterStorage} (h : WFParam p = true) :
    (∀ c ∈ p.name, isWs c = false) ∧ p.values.length = dimSize p.dim ∧
      p.g.length = dimSize p.dim := by
  unfold WFParam at h
  rw [Bool.and_eq_true, Bool.and_eq_true] at h
  refine ⟨?_, by simpa using h.1.2, by simpa using h.2⟩
  intro c hc
  have := List.all_eq_true.mp h.1.1 c hc
  simpa using this

theorem WFLookup_parts {q : LookupParameterStorage} (h : WFLookup q = true) :
    (∀ c ∈ q.name, isWs c = false) ∧ q.all_values.length = dimSize q.all_dim ∧
      q.all_grads.length = dimSize q.all_dim := by
  unfold WFLookup at h
  rw [Bool.and_eq_true, Bool.and_eq_true] at h
  refine ⟨?_, by simpa using h.1.2, by simpa using h.2⟩
  intro c hc
  have := List.all_eq_true.mp h.1.1 c hc
  simpa using this

theorem WFStorage_parts {st : ParameterCollectionStorage} (h : WFStorage st = true) :
    (∀ p ∈ st.params, WFParam p = true) ∧ (∀ q ∈ st.lookup_params, WFLookup q = true) := by
  unfold WFStorage at h
  rw [Bool.and_eq_true] at h
  exact ⟨fun p hp => List.all_eq_true.mp h.1 p hp, fun q hq => List.all_eq_true.mp h.2 q hq⟩

theorem tokenOk_append_of {a b : Str} (ha : tokenOk a = true)
    (hb : ∀ c ∈ b, isWs c = false) : tokenOk (a ++ b) = true := by
  unfold tokenOk at ha ⊢
  rw [Bool.and_eq_true] at ha ⊢
  constructor
  · cases a with
    | nil => simpa using ha.1
    | cons x l => simp
  · rw [List.all_eq_true]
    intro c hc
    rw [List.mem_append] at hc
    rcases hc with h1 | h2
    · exact List.all_eq_true.mp ha.2 c h1
    · simp [hb c h2]

theorem normKey_tokenOk {key : Str} (h : tokenOk key = true) :
    tokenOk (normKey key) = true := by
  unfold normKey
  split
  · exact h
  · exact tokenOk_append_of h (by intro c hc; rcases List.mem_singleton.mp hc with rfl; decide)

theorem mapSaveParams_eq (stripLen : Nat) (key_ : Str) (ps : List ParameterStorage)
    (h : ∀ p ∈ ps, stripLen ≤ p.name.length) :
    mapSaveParams stripLen key_ ps =
      some (ps.map (fun p => saveParamRecord p (key_ ++ p.name.drop stripLen))) := by
  induction ps with
  | nil => rfl
  | cons p ps ih =>
    unfold mapSaveParams substrFrom
    rw [if_pos (h p (by simp))]
    rw [ih (fun x hx => h x (by simp [hx]))]
    rfl

theorem mapSaveLookups_eq (stripLen : Nat) (key_ : Str) (qs : List LookupParameterStorage)
    (h : ∀ q ∈ qs, stripLen ≤ q.name.length) :
    mapSaveLookups stripLen key_ qs =
      some (qs.map (fun q => saveLookupRecord q (key_ ++ q.name.drop stripLen))) := by
  induction qs with
  | nil => rfl
  | cons q qs ih =>
    unfold mapSaveLookups substrFrom
    rw [if_pos (h q (by simp))]
    rw [ih (fun x hx => h x (by simp [hx]))]
    rfl

theorem mapSaveParams_some {stripLen : Nat} {key_ : Str} :
    ∀ {ps : List ParameterStorage} {prs : List Rec},
      mapSaveParams stripLen key_ ps = some prs →
      prs = ps.map (fun p => saveParamRecord p (key_ ++ p.name.drop stripLen)) := by
  intro ps
  induction ps with
  | nil =>
    intro prs h
    injection h with h
    rw [← h]
    rfl
  | cons p ps ih =>
    intro prs h
    unfold mapSaveParams at h
    cases hs : substrFrom p.name stripLen with
    | none =>
      rw [hs] at h
      cases h
    | some suf =>
      rw [hs] at h
      cases hr : mapSaveParams stripLen key_ ps with
      | none =>
        rw [hr] at h
        cases h
      | some rest =>
        rw [hr] at h
        have hsuf : suf = p.name.drop stripLen := by
          unfold substrFrom at hs
          split at hs
          · injection hs with h2
            exact h2.symm
          · cases hs
        injection h with h
        rw [← h, hsuf, ih hr]
        rfl

theorem mapSaveLookups_some {stripLen : Nat} {key_ : Str} :
    ∀ {qs : List LookupParameterStorage} {lrs : List Rec},
      mapSaveLookups stripLen key_ qs = some lrs →
      lrs = qs.map (fun q => saveLookupRecord q (key_ ++ q.name.drop stripLen)) := by
  intro qs
  induction qs with
  | nil =>
    intro lrs h
    injection h with h
    rw [← h]
    rfl
  | cons q qs ih =>
    intro lrs h
    unfold mapSaveLookups at h
    cases hs : substrFrom q.name stripLen with
    | none =>
      rw [hs] at h
      cases h
    | some suf =>
      rw [hs] at h
      cases hr : mapSaveLookups stripLen key_ qs with
      | none =>
        rw [hr] at h
        cases h
      | some rest =>
        rw [hr] at h
        have hsuf : suf = q.name.drop stripLen := by
          unfold substrFrom at hs
          split at hs
          · injection hs with h2
            exact h2.symm
          · cases hs
        injection h with h
        rw [← h, hsuf, ih hr]
        rfl

theorem saveModelRecords_eq (m : Model) (key : Str) (hval : valid_pc_key key = true)
    (hkey : key ≠ [])
    (hnp : ∀ p ∈ m.storage.params, m.fullname.length ≤ p.name.length)
    (hnl : ∀ q ∈ m.storage.lookup_params, m.fullname.length ≤ q.name.length) :
    saveModelRecords m key = some
      (m.storage.params.map
          (fun p => saveParamRecord p (normKey key ++ p.name.drop m.fullname.length)) ++
        m.storage.lookup_params.map
          (fun q => saveLookupRecord q (normKey key ++ q.name.drop m.fullname.length))) := by
  unfold saveModelRecords
  rw [if_neg (by simp [hval])]
  rw [keyNormalize_of_ne_nil hkey]
  simp [length_ne_zero_of_ne_nil hkey,
    mapSaveParams_eq m.fullname.length (normKey key) m.storage.params hnp,
    mapSaveLookups_eq m.fullname.length (normKey key) m.storage.lookup_params hnl]

theorem saveModelRecords_some {m : Model} {key : Str} {rs : List Rec} (hkey : key ≠ [])
    (h : saveModelRecords m key = some rs) :
    rs = m.storage.params.map
        (fun p => saveParamRecord p (normKey key ++ p.name.drop m.fullname.length)) ++
      m.storage.lookup_params.map
        (fun q => saveLookupRecord q (normKey key ++ q.name.drop m.fullname.length)) := by
  unfold saveModelRecords at h
  by_cases hv : valid_pc_key key = false
  · rw [if_pos hv] at h
    cases h
  · rw [if_neg hv, keyNormalize_of_ne_nil hkey] at h
    simp only [length_ne_zero_of_ne_nil hkey, if_false] at h
    cases hp : mapSaveParams m.fullname.length (normKey key) m.storage.params with
    | none =>
      rw [hp] at h
      cases h
    | some prs =>
      cases hl : mapSaveLookups m.fullname.length (normKey key) m.storage.lookup_params with
      | none =>
        rw [hp, hl] at h
        cases h
      | some lrs =>
        rw [hp, hl] at h
        injection h with h
        rw [← h, mapSaveParams_some hp, mapSaveLookups_some hl]

theorem saveParamRecord_WF {p : ParameterStorage} {k : Str} (hk : tokenOk k = true)
    (hp : WFParam p = true) : WFRec (saveParamRecord p k) = true := by
  obtain ⟨-, hvl, hgl⟩ := WFParam_parts hp
  have hkne : k.length > 0 := by
    unfold tokenOk at hk
    rw [Bool.and_eq_true] at hk
    cases k with
    | nil => simp at hk
    | cons a l => simp
  unfold WFRec saveParamRecord
  simp only [hkne, if_pos]
  rw [Bool.and_eq_true, Bool.and_eq_true, Bool.and_eq_true]
  refine ⟨⟨⟨by decide, ?_⟩, by simpa using hvl⟩, by simpa using hgl⟩
  simpa using hk

theorem saveLookupRecord_WF {q : LookupParameterStorage} {k : Str} (hk : tokenOk k = true)
    (hq : WFLookup q = true) : WFRec (saveLookupRecord q k) = true := by
  obtain ⟨-, hvl, hgl⟩ := WFLookup_parts hq
  have hkne : k.length > 0 := by
    unfold tokenOk at hk
    rw [Bool.and_eq_true] at hk
    cases k with
    | nil => simp at hk
    | cons a l => simp
  unfold WFRec saveLookupRecord
  simp only [hkne, if_pos]
  rw [Bool.and_eq_true, Bool.and_eq_true, Bool.and_eq_true]
  refine ⟨⟨⟨by decide, ?_⟩, by simpa using hvl⟩, by simpa using hgl⟩
  simpa using hk

theorem name_drop_no_ws {p : Str} (h : ∀ c ∈ p, isWs c = false) (n : Nat) :
    ∀ c ∈ p.drop n, isWs c = false :=
  fun c hc => h c (List.drop_subset n p hc)

theorem saveRecords_WFFile (m : Model) (key : Str) (htok : tokenOk key = true)
    (hm : WFModel m = true) :
    WFFile
      (m.storage.params.map
          (fun p => saveParamRecord p (normKey key ++ p.name.drop m.fullname.length)) ++
        m.storage.lookup_params.map
          (fun q => saveLookupRecord q (normKey key ++ q.name.drop m.fullname.length))) =
      true := by
  obtain ⟨hps, hls⟩ := WFStorage_parts hm
  unfold WFFile
  rw [List.all_append, Bool.and_eq_true]
  constructor
  · rw [List.all_eq_true]
    intro x hx
    rw [List.mem_map] at hx
    obtain ⟨p, hp, rfl⟩ := hx
    exact saveParamRecord_WF
      (tokenOk_append_of (normKey_tokenOk htok)
        (name_drop_no_ws (WFParam_parts (hps p hp)).1 _))
      (hps p hp)
  · rw [List.all_eq_true]
    intro x hx
    rw [List.mem_map] at hx
    obtain ⟨q, hq, rfl⟩ := hx
    exact saveLookupRecord_WF
      (tokenOk_append_of (normKey_tokenOk htok)
        (name_drop_no_ws (WFLookup_parts (hls q hq)).1 _))
      (hls q hq)

theorem serializeRecs_append (a b : List Rec) :
    serializeRecs (a ++ b) = serializeRecs a ++ serializeRecs b := by
  induction a with
  | nil => rfl
  | cons r rest ih =>
    show serializeRec r ++ serializeRecs (rest ++ b) = _
    rw [ih]
    simp [serializeRecs]

/-- Byte offset at which the `i`-th record of a serialized file starts. -/
def recStart (rs : List Rec) (i : Nat) : Nat := (serializeRecs (rs.take i)).length

theorem drop_recStart (rs : List Rec) (i : Nat) :
    (serializeRecs rs).drop (recStart rs i) = serializeRecs (rs.drop i) := by
  have h : serializeRecs rs = serializeRecs (rs.take i) ++ serializeRecs (rs.drop i) := by
    rw [← serializeRecs_append, List.take_append_drop]
  rw [h]
  unfold recStart
  exact List.drop_left _ _

theorem recStart_succ {rs : List Rec} {i : Nat} {r : Rec} (h : rs.get? i = some r) :
    recStart rs (i + 1) = recStart rs i + (serializeRec r).length := by
  have h2 : rs[i]? = some r := by
    rw [← List.get?_eq_getElem?]
    exact h
  unfold recStart
  rw [List.take_succ, h2, serializeRecs_append]
  simp [serializeRecs]

theorem serializeRec_length (r : Rec) :
    (serializeRec r).length = (headerStr r).length + 1 + (payloadStr r).length := by
  unfold serializeRec
  simp
  omega

/-- Skip exactness over any serialized well-formed record list: the header
parses back the written payload byte count, and that count seeks from just
after the header line exactly to the next record's start (the total length
for the last record). -/
theorem serialized_skip (rs : List Rec) (hwf : WFFile rs = true) :
    ∀ (i : Nat) (r : Rec), rs.get? i = some r →
      getline (serializeRecs rs) (recStart rs i) =
          some (headerStr r, recStart rs i + (headerStr r).length + 1) ∧
        (parseHeaderInto hv0 (headerStr r)).byte_count = (payloadStr r).length ∧
        recStart rs i + (headerStr r).length + 1 + (payloadStr r).length =
          recStart rs (i + 1) ∧
        (rs.get? (i + 1) = none → recStart rs (i + 1) = (serializeRecs rs).length) := by
  intro i r hget
  have hlt : i < rs.length := by
    by_contra hc
    rw [List.get?_eq_none.mpr (by omega)] at hget
    cases hget
  have hdropi : rs.drop i = r :: rs.drop (i + 1) := by
    have h1 := drop_eq_get_cons hlt
    have h2 : rs.get ⟨i, hlt⟩ = r := by
      have h3 := List.get?_eq_get hlt
      rw [h3] at hget
      injection hget
    rw [h1, h2]
  have hwfr : WFRec r = true :=
    WFFile_mem hwf (by rw [← List.take_append_drop i rs, hdropi]; simp)
  have hdrop2 : (serializeRecs rs).drop (recStart rs i) =
      headerStr r ++ '\n' :: (payloadStr r ++ serializeRecs (rs.drop (i + 1))) := by
    rw [drop_recStart, hdropi]
    show serializeRec r ++ serializeRecs (rs.drop (i + 1)) = _
    exact serializeRec_decomp r _
  obtain ⟨hg, -⟩ := getline_line hdrop2 (headerStr_no_nl hwfr)
  refine ⟨hg, ?_, ?_, ?_⟩
  · rw [parseHeaderInto_header hwfr hv0]
  · rw [recStart_succ hget, serializeRec_length]
    omega
  · intro hnone
    have hle : rs.length ≤ i + 1 := by
      by_contra hc
      rw [List.get?_eq_get (by omega)] at hnone
      cases hnone
    unfold recStart
    rw [List.take_of_length_le hle]

/-- The `#Parameter#` records of a list, in order. -/
def paramRecs (recs : List Rec) : List Rec := recs.filter (fun r => r.tag == pTag)

/-- The `#LookupParameter#` records of a list, in order. -/
def lookupRecs (recs : List Rec) : List Rec := recs.filter (fun r => r.tag == lTag)

theorem refLoadAux_badTag (st : ParameterCollectionStorage) (pid lid : Nat)
    (r : Rec) (rs : List Rec) (h1 : r.tag ≠ pTag) (h2 : r.tag ≠ lTag) :
    refLoadAux st pid lid (r :: rs) = .error (.badSpec (headerStr r), st) := by
  simp only [refLoadAux]
  rw [if_neg h1, if_neg h2]

theorem pTag_ne_lTag : pTag ≠ lTag := by decide

/-- A shape-mismatch abort during a bulk populate pinpoints an entity whose
stored shape is the reported target shape and which — along with every
later entity — is left exactly as it was. -/
theorem refLoadAux_dim_err_param :
    ∀ (recs : List Rec) (st : ParameterCollectionStorage) (pid lid : Nat)
      (n : Str) (d1 d2 : Dim) (st' : ParameterCollectionStorage),
      refLoadAux st pid lid recs = .error (.dimMismatchParam n d1 d2, st') →
      d1 ≠ d2 ∧ ∃ i, pid ≤ i ∧ ∃ p, st.params.get? i = some p ∧ p.dim = d2 ∧
        st'.params.get? i = some p := by
  intro recs
  induction recs with
  | nil =>
    intro st pid lid n d1 d2 st' h
    simp only [refLoadAux] at h
    split at h
    · cases h
    · simp at h
  | cons r rest ih =>
    intro st pid lid n d1 d2 st' h
    simp only [refLoadAux] at h
    by_cases ht1 : r.tag = pTag
    · rw [if_pos ht1] at h
      by_cases hb : pid < st.params.length
      · rw [dif_pos hb] at h
        by_cases hdim : (st.params.get ⟨pid, hb⟩).dim = r.dims
        · rw [if_neg (not_not_intro hdim)] at h
          obtain ⟨hne, i, hge, p, hsp, hpd, hsp'⟩ := ih _ _ _ _ _ _ _ h
          refine ⟨hne, i, by omega, p, ?_, hpd, hsp'⟩
          have := get?_set_ne st.params pid i
            ({ st.params.get ⟨pid, hb⟩ with
               values := set_elements (st.params.get ⟨pid, hb⟩).values r.vals
               g := set_elements (st.params.get ⟨pid, hb⟩).g r.grads }) (by omega)
          rw [← this]
          exact hsp
        · rw [if_pos hdim] at h
          simp only [Except.error.injEq, Prod.mk.injEq, LoadErr.dimMismatchParam.injEq] at h
          obtain ⟨⟨hn, hd1, hd2⟩, hst⟩ := h
          subst hd1
          subst hd2
          subst hst
          refine ⟨fun hc => hdim hc.symm, pid, Nat.le_refl _,
            st.params.get ⟨pid, hb⟩, List.get?_eq_get hb, rfl, List.get?_eq_get hb⟩
      · rw [dif_neg hb] at h
        simp at h
    · rw [if_neg ht1] at h
      by_cases ht2 : r.tag = lTag
      · rw [if_pos ht2] at h
        by_cases hb : lid < st.lookup_params.length
        · rw [dif_pos hb] at h
          by_cases hdim : (st.lookup_params.get ⟨lid, hb⟩).all_dim = r.dims
          · rw [if_neg (not_not_intro hdim)] at h
            obtain ⟨hne, i, hge, p, hsp, hpd, hsp'⟩ := ih _ _ _ _ _ _ _ h
            exact ⟨hne, i, hge, p, hsp, hpd, hsp'⟩
          · rw [if_pos hdim] at h
            simp at h
        · rw [dif_neg hb] at h
          simp at h
      · rw [if_neg ht2] at h
        simp at h

/-- Mirror of `refLoadAux_dim_err_param` for lookup-parameter shape
mismatches. -/
theorem refLoadAux_dim_err_lookup :
    ∀ (recs : List Rec) (st : ParameterCollectionStorage) (pid lid : Nat)
      (n : Str) (d1 d2 : Dim) (st' : ParameterCollectionStorage),
      refLoadAux st pid lid recs = .error (.dimMismatchLookup n d1 d2, st') →
      d1 ≠ d2 ∧ ∃ i, lid ≤ i ∧ ∃ q, st.lookup_params.get? i = some q ∧
        q.all_dim = d2 ∧ st'.lookup_params.get? i = some q := by
  intro recs
  induction recs with
  | nil =>
    intro st pid lid n d1 d2 st' h
    simp only [refLoadAux] at h
    split at h
    · cases h
    · simp at h
  | cons r rest ih =>
    intro st pid lid n d1 d2 st' h
    simp only [refLoadAux] at h
    by_cases ht1 : r.tag = pTag
    · rw [if_pos ht1] at h
      by_cases hb : pid < st.params.length
      · rw [dif_pos hb] at h
        by_cases hdim : (st.params.get ⟨pid, hb⟩).dim = r.dims
        · rw [if_neg (not_not_intro hdim)] at h
          obtain ⟨hne, i, hge, q, hsp, hpd, hsp'⟩ := ih _ _ _ _ _ _ _ h
          exact ⟨hne, i, hge, q, hsp, hpd, hsp'⟩
        · rw [if_pos hdim] at h
          simp at h
      · rw [dif_neg hb] at h
        simp at h
    · rw [if_neg ht1] at h
      by_cases ht2 : r.tag = lTag
      · rw [if_pos ht2] at h
        by_cases hb : lid < st.lookup_params.length
        · rw [dif_pos hb] at h
          by_cases hdim : (st.lookup_params.get ⟨lid, hb⟩).all_dim = r.dims
          · rw [if_neg (not_not_intro hdim)] at h
            obtain ⟨hne, i, hge, q, hsp, hpd, hsp'⟩ := ih _ _ _ _ _ _ _ h
            refine ⟨hne, i, by omega, q, ?_, hpd, hsp'⟩
            have := get?_set_ne st.lookup_params lid i
              ({ st.lookup_params.get ⟨lid, hb⟩ with
                 all_values := set_elements (st.lookup_params.get ⟨lid, hb⟩).all_values r.vals
                 all_grads := set_elements (st.lookup_params.get ⟨lid, hb⟩).all_grads r.grads })
              (by omega)
            rw [← this]
            exact hsp
          · rw [if_pos hdim] at h
            simp only [Except.error.injEq, Prod.mk.injEq, LoadErr.dimMismatchLookup.injEq] at h
            obtain ⟨⟨hn, hd1, hd2⟩, hst⟩ := h
            subst hd1
            subst hd2
            subst hst
            refine ⟨fun hc => hdim hc.symm, lid, Nat.le_refl _,
              st.lookup_params.get ⟨lid, hb⟩, List.get?_eq_get hb, rfl, List.get?_eq_get hb⟩
        · rw [dif_neg hb] at h
          simp at h
      · rw [if_neg ht2] at h
        simp at h

/-- Count bookkeeping of the reference scan: with recognizable tags and
agreeing shapes wherever record and entity are compared, either everything
fits — and the run ends in `ok` exactly when the consumed counts equal the
model's totals and in a count-mismatch error reporting them otherwise — or
some record overflows its entity list and the scan aborts on a
too-many-entities error. -/
theorem refLoadAux_counts :
    ∀ (recs : List Rec) (st : ParameterCollectionStorage) (pid lid : Nat),
      (∀ r ∈ recs, r.tag = pTag ∨ r.tag = lTag) →
      ((paramRecs recs).zip (st.params.drop pid)).all
          (fun x => x.1.dims == x.2.dim) = true →
      ((lookupRecs recs).zip (st.lookup_params.drop lid)).all
          (fun x => x.1.dims == x.2.all_dim) = true →
      pid ≤ st.params.length → lid ≤ st.lookup_params.length →
      ((pid + (paramRecs recs).length ≤ st.params.length ∧
          lid + (lookupRecs recs).length ≤ st.lookup_params.length) →
        ∃ st' : ParameterCollectionStorage,
          st'.params.length = st.params.length ∧
            st'.lookup_params.length = st.lookup_params.length ∧
            refLoadAux st pid lid recs =
              (if pid + (paramRecs recs).length = st.params.length ∧
                  lid + (lookupRecs recs).length = st.lookup_params.length
               then .ok st'
               else .error (.countMismatch (pid + (paramRecs recs).length)
                  (lid + (lookupRecs recs).length) st.params.length
                  st.lookup_params.length, st'))) ∧
      ((st.params.length < pid + (paramRecs recs).length ∨
          st.lookup_params.length < lid + (lookupRecs recs).length) →
        ∃ (st' : ParameterCollectionStorage) (nm : Str),
          refLoadAux st pid lid recs = .error (.tooManyParams nm, st') ∨
          refLoadAux st pid lid recs = .error (.tooManyLookups nm, st')) := by
  intro recs
  induction recs with
  | nil =>
    intro st pid lid htags hdp hdl hple hlle
    constructor
    · intro hfit
      refine ⟨st, rfl, rfl, ?_⟩
      simp [refLoadAux, paramRecs, lookupRecs]
    · intro hover
      simp only [paramRecs, lookupRecs, List.filter_nil, List.length_nil] at hover
      omega
  | cons r rest ih =>
    intro st pid lid htags hdp hdl hple hlle
    rcases htags r (by simp) with hp | hl
    · have hpr : paramRecs (r :: rest) = r :: paramRecs rest := by
        unfold paramRecs
        rw [List.filter_cons_of_pos (by simp [hp])]
      have hlr : lookupRecs (r :: rest) = lookupRecs rest := by
        unfold lookupRecs
        rw [List.filter_cons_of_neg (by simp [hp, pTag_ne_lTag])]
      by_cases hb : pid < st.params.length
      · have hdps : st.params.drop pid =
            st.params.get ⟨pid, hb⟩ :: st.params.drop (pid + 1) := drop_eq_get_cons hb
        have hdim : r.dims = (st.params.get ⟨pid, hb⟩).dim := by
          rw [hpr, hdps] at hdp
          simp only [List.zip_cons_cons, List.all_cons, Bool.and_eq_true, beq_iff_eq] at hdp
          exact hdp.1
        have hstep : refLoadAux st pid lid (r :: rest) =
            refLoadAux
              { st with
                params := st.params.set pid
                  { st.params.get ⟨pid, hb⟩ with
                    values := set_elements (st.params.get ⟨pid, hb⟩).values r.vals
                    g := set_elements (st.params.get ⟨pid, hb⟩).g r.grads } }
              (pid + 1) lid rest := by
          simp only [refLoadAux]
          rw [if_pos hp, dif_pos hb, if_neg (not_not_intro hdim.symm)]
        obtain ⟨ih1, ih2⟩ := ih
          { st with
            params := st.params.set pid
              { st.params.get ⟨pid, hb⟩ with
                values := set_elements (st.params.get ⟨pid, hb⟩).values r.vals
                g := set_elements (st.params.get ⟨pid, hb⟩).g r.grads } }
          (pid + 1) lid
          (fun x hx => htags x (by simp [hx]))
          (by
            rw [hpr, hdps] at hdp
            simp only [List.zip_cons_cons, List.all_cons, Bool.and_eq_true] at hdp
            simpa [drop_set_succ] using hdp.2)
          (by rw [hlr] at hdl; simpa using hdl)
          (by simp [List.length_set]; omega)
          (by simpa using hlle)
        constructor
        · intro hfit
          rw [hpr, hlr] at hfit ⊢
          simp only [List.length_cons] at hfit ⊢
          obtain ⟨st', he1, he2, he3⟩ := ih1 (by simp [List.length_set]; omega)
          refine ⟨st', by simpa [List.length_set] using he1, by simpa using he2, ?_⟩
          rw [hstep, he3]
          simp only [List.length_set]
          have e1 : pid + 1 + (paramRecs rest).length = pid + ((paramRecs rest).length + 1) := by
            omega
          rw [e1]
        · intro hover
          rw [hpr, hlr] at hover
          simp only [List.length_cons] at hover
          obtain ⟨st', nm, hcase⟩ := ih2 (by simp [List.length_set]; omega)
          exact ⟨st', nm, by rwa [hstep]⟩
      · have hpe : pid = st.params.length := by omega
        have herr : refLoadAux st pid lid (r :: rest) = .error (.tooManyParams r.name, st) := by
          simp only [refLoadAux]
          rw [if_pos hp, dif_neg hb]
        constructor
        · intro hfit
          rw [hpr] at hfit
          simp only [List.length_cons] at hfit
          omega
        · intro hover
          exact ⟨st, r.name, Or.inl herr⟩
    · have hpr : paramRecs (r :: rest) = paramRecs rest := by
        unfold paramRecs
        rw [List.filter_cons_of_neg (by simp [hl]; exact fun hc => pTag_ne_lTag hc.symm)]
      have hlr : lookupRecs (r :: rest) = r :: lookupRecs rest := by
        unfold lookupRecs
        rw [List.filter_cons_of_pos (by simp [hl])]
      have hnotp : ¬(r.tag = pTag) := by
        rw [hl]
        exact fun hc => pTag_ne_lTag hc.symm
      by_cases hb : lid < st.lookup_params.length
      · have hdls : st.lookup_params.drop lid =
            st.lookup_params.get ⟨lid, hb⟩ :: st.lookup_params.drop (lid + 1) :=
          drop_eq_get_cons hb
        have hdim : r.dims = (st.lookup_params.get ⟨lid, hb⟩).all_dim := by
          rw [hlr, hdls] at hdl
          simp only [List.zip_cons_cons, List.all_cons, Bool.and_eq_true, beq_iff_eq] at hdl
          exact hdl.1
        have hstep : refLoadAux st pid lid (r :: rest) =
            refLoadAux
              { st with
                lookup_params := st.lookup_params.set lid
                  { st.lookup_params.get ⟨lid, hb⟩ with
                    all_values := set_elements (st.lookup_params.get ⟨lid, hb⟩).all_values r.vals
                    all_grads := set_elements (st.lookup_params.get ⟨lid, hb⟩).all_grads r.grads } }
              pid (lid + 1) rest := by
          simp only [refLoadAux]
          rw [if_neg hnotp, if_pos hl, dif_pos hb, if_neg (not_not_intro hdim.symm)]
        obtain ⟨ih1, ih2⟩ := ih
          { st with
            lookup_params := st.lookup_params.set lid
              { st.lookup_params.get ⟨lid, hb⟩ with
                all_values := set_elements (st.lookup_params.get ⟨lid, hb⟩).all_values r.vals
                all_grads := set_elements (st.lookup_params.get ⟨lid, hb⟩).all_grads r.grads } }
          pid (lid + 1)
          (fun x hx => htags x (by simp [hx]))
          (by
            rw [hpr] at hdp
            simpa using hdp)
          (by
            rw [hlr, hdls] at hdl
            simp only [List.zip_cons_cons, List.all_cons, Bool.and_eq_true] at hdl
            simpa [drop_set_succ] using hdl.2)
          (by simpa using hple)
          (by simp [List.length_set]; omega)
        constructor
        · intro hfit
          rw [hpr, hlr] at hfit ⊢
          simp only [List.length_cons] at hfit ⊢
          obtain ⟨st', he1, he2, he3⟩ := ih1 (by simp [List.length_set]; omega)
          refine ⟨st', by simpa using he1, by simpa [List.length_set] using he2, ?_⟩
          rw [hstep, he3]
          simp only [List.length_set]
          have e1 : lid + 1 + (lookupRecs rest).length = lid + ((lookupRecs rest).length + 1) := by
            omega
          rw [e1]
        · intro hover
          rw [hpr, hlr] at hover
          simp only [List.length_cons] at hover
          obtain ⟨st', nm, hcase⟩ := ih2 (by simp [List.length_set]; omega)
          exact ⟨st', nm, by rwa [hstep]⟩
      · have herr : refLoadAux st pid lid (r :: rest) = .error (.tooManyLookups r.name, st) := by
          simp only [refLoadAux]
          rw [if_neg hnotp, if_pos hl, dif_neg hb]
        constructor
        · intro hfit
          rw [hlr] at hfit
          simp only [List.length_cons] at hfit
          omega
        · intro hover
          exact ⟨st, r.name, Or.inr herr⟩

/-- Claim C9: `valid_key` accepts exactly the empty string and the strings
other than "/" containing no space and no '#'; `valid_pc_key` accepts
exactly the empty string and the strings that start with '/' and are
`valid_key`. -/
theorem c9_key_validators (s : Str) :
    (valid_key s = true ↔ (s = [] ∨ (s ≠ ['/'] ∧ ∀ c ∈ s, c ≠ ' ' ∧ c ≠ '#'))) ∧
    (valid_pc_key s = true ↔
      (s = [] ∨ ((∃ t, s = '/' :: t) ∧ valid_key s = true))) := by
  constructor
  · unfold valid_key
    by_cases h0 : s.length = 0
    · have hnil : s = [] := List.length_eq_zero.mp h0
      subst hnil
      simp
    · have hne : s ≠ [] := by
        intro hc
        subst hc
        simp at h0
      rw [if_neg h0]
      by_cases h1 : s = ['/']
      · subst h1
        simp
      · rw [if_neg h1]
        constructor
        · intro h
          refine Or.inr ⟨h1, ?_⟩
          intro c hc
          rw [Bool.not_eq_true', List.any_eq_false] at h
          have h2 := h c hc
          constructor
          · intro hc'
            subst hc'
            simp at h2
          · intro hc'
            subst hc'
            simp at h2
        · rintro (hc | ⟨-, h⟩)
          · exact absurd hc hne
          · rw [Bool.not_eq_true', List.any_eq_false]
            intro c hc
            have h2 := h c hc
            simp [h2.1, h2.2]
  · unfold valid_pc_key
    by_cases h0 : s.length = 0
    · have hnil : s = [] := List.length_eq_zero.mp h0
      subst hnil
      simp
    · have hne : s ≠ [] := by
        intro hc
        subst hc
        simp at h0
      rw [if_neg h0]
      cases s with
      | nil => exact absurd rfl hne
      | cons c cs =>
        by_cases hc : c = '/'
        · subst hc
          have hsw : startswith ('/' :: cs) ['/'] = true := by
            simp [startswith, List.isPrefixOf]
          rw [if_neg (by simp [hsw])]
          constructor
          · intro h
            exact Or.inr ⟨⟨cs, rfl⟩, h⟩
          · rintro (hcontra | ⟨-, h⟩)
            · cases hcontra
            · exact h
        · have hsw : startswith (c :: cs) ['/'] = false := by
            simp [startswith, List.isPrefixOf]
            intro hcc
            exact absurd hcc.symm hc
          rw [if_pos (by simp [hsw])]
          constructor
          · intro h
            cases h
          · rintro (hcontra | ⟨⟨t, ht⟩, -⟩)
            · cases hcontra
            · injection ht with h1
              exact absurd h1 hc

/-- A concrete model: full name `/m`, one parameter `/m/w` of shape `{2}`. -/
def m10 : Model := ⟨"/m".data, ⟨[⟨"/m/w".data, [2], [5, 6], [0, 1]⟩], []⟩⟩

/-- Claim C10 (refuted — code bug): the namespaced-key validator accepts
the empty key, but the key normalization in the whole-model save and
populate reads `key_.back()` before their own empty-key handling, an
out-of-bounds access on the empty string: the `none` branch of the total
embedding is reached, so both operations abort instead of proceeding. -/
theorem c10_empty_key_oob :
    valid_pc_key [] = true ∧ keyNormalize [] = none ∧
      saveModel m10 [] = none ∧
      populateModel ("x".data) m10.storage [] = .error (.oobRead, m10.storage) := by
  refine ⟨rfl, rfl, rfl, rfl⟩

/-- Claim C3: on a serialized record file and a non-empty key, the bulk
populate normalizes the key to a '/'-terminated prefix and behaves exactly
as the reference semantics — decode the records whose key starts with the
normalized prefix, in file order, dispatching positionally (not by name) on
the parameter and lookup lists, and skip every other record — applied to
exactly those matching records. -/
theorem c3_prefix_positional (rs : List Rec) (st : ParameterCollectionStorage) (key : Str)
    (hwf : WFFile rs = true) (hkey : key ≠ []) :
    normKey key = (if key.getLast? = some '/' then key else key ++ ['/']) ∧
    populateModel (serializeRecs rs) st key =
      refLoadAux st 0 0 (rs.filter (fun r => (normKey key).isPrefixOf r.name)) :=
  ⟨rfl, populateModel_adequate rs st key hwf hkey⟩

/-- Two records under distinct namespaces, for prefix-filter checks. -/
def rs3w : List Rec :=
  [⟨pTag, "/a/x".data, [2], [1, 2], [3, 4]⟩, ⟨pTag, "/b/y".data, [2], [8, 9], [7, 7]⟩]

def st3w : ParameterCollectionStorage := ⟨[⟨"w".data, [2], [0, 0], [0, 0]⟩], []⟩

theorem c3_prefix_positional_witness :
    normKey ("/a".data) =
      (if ("/a".data).getLast? = some '/' then "/a".data else "/a".data ++ ['/']) ∧
    populateModel (serializeRecs rs3w) st3w ("/a".data) =
      refLoadAux st3w 0 0 (rs3w.filter (fun r => (normKey ("/a".data)).isPrefixOf r.name)) :=
  c3_prefix_positional rs3w st3w ("/a".data) (by decide) (by decide)

/-- A header line whose payload-length field is the unparsable token `zz`,
followed by a valid payload. -/
def c7file : Str :=
  "#Parameter# /a/x {2} zz".data ++ '\n' ::
    ("1 2".data ++ '\n' :: ("3 4".data ++ ['\n']))

def c7st : ParameterCollectionStorage := ⟨[⟨"/a/x".data, [2], [0, 0], [0, 0]⟩], []⟩

def c7st2 : ParameterCollectionStorage := ⟨[⟨"/a/x".data, [2], [1, 2], [3, 4]⟩], []⟩

/-- Claim C7 counterexample: a header whose fourth field fails to parse as
the payload length (the numeric extraction fails, C++11 writes `0`, and the
code never checks the stream state) is not rejected: the bulk populate
completes successfully, contradicting the claim that such inputs fail with
a malformed-record error. -/
theorem c7_counterexample :
    parseNat ("zz".data) = none ∧
      populateModel c7file c7st ("/a".data) = .ok c7st2 := by
  constructor
  · rfl
  · rfl

/-- Claim C7 amended: only an unrecognized tag token on a record that is
not skipped aborts the bulk populate, fatally and naming the offending
header line; parse failures of the other header fields (and of payload
lines) are not detected. -/
theorem c7_amended_bad_tag (rs : List Rec) (st : ParameterCollectionStorage) (key : Str)
    (r : Rec) (rest : List Rec)
    (hwf : WFFile rs = true) (hkey : key ≠ [])
    (hfilter : rs.filter (fun x => (normKey key).isPrefixOf x.name) = r :: rest)
    (h1 : r.tag ≠ pTag) (h2 : r.tag ≠ lTag) :
    populateModel (serializeRecs rs) st key = .error (.badSpec (headerStr r), st) := by
  rw [populateModel_adequate rs st key hwf hkey, hfilter]
  exact refLoadAux_badTag st 0 0 r rest h1 h2

def rs7w : List Rec := [⟨"#Oops#".data, "/a/x".data, [1], [5], [6]⟩]

theorem c7_amended_bad_tag_witness :
    populateModel (serializeRecs rs7w) c7st ("/a".data) =
      .error (.badSpec (headerStr ⟨"#Oops#".data, "/a/x".data, [1], [5], [6]⟩), c7st) :=
  c7_amended_bad_tag rs7w c7st ("/a".data) ⟨"#Oops#".data, "/a/x".data, [1], [5], [6]⟩ []
    (by decide) (by decide) (by decide) (by decide) (by decide)

/-- Claim C2: every record the whole-model saver writes declares in its
header exactly the byte count of its two payload lines including their
terminators (the reader's header parse recovers it), and seeking that many
bytes from just past the header line lands exactly at the next record's
start — the end of the stream for the last record. -/
theorem c2_payload_length_exact (m : Model) (key : Str) (rs : List Rec)
    (hval : valid_pc_key key = true) (htok : tokenOk key = true) (hkey : key ≠ [])
    (hm : WFModel m = true) (hrs : saveModelRecords m key = some rs) :
    saveModel m key = some (serializeRecs rs) ∧
    ∀ (i : Nat) (r : Rec), rs.get? i = some r →
      getline (serializeRecs rs) (recStart rs i) =
          some (headerStr r, recStart rs i + (headerStr r).length + 1) ∧
      (parseHeaderInto hv0 (headerStr r)).byte_count = (payloadStr r).length ∧
      recStart rs i + (headerStr r).length + 1 + (payloadStr r).length =
        recStart rs (i + 1) ∧
      (rs.get? (i + 1) = none → recStart rs (i + 1) = (serializeRecs rs).length) := by
  have hwf : WFFile rs = true := by
    rw [saveModelRecords_some hkey hrs]
    exact saveRecords_WFFile m key htok hm
  refine ⟨?_, serialized_skip rs hwf⟩
  unfold saveModel
  rw [hrs]
  rfl

/-- A concrete model with one parameter and one lookup parameter. -/
def m2w : Model :=
  ⟨"/m/".data,
    ⟨[⟨"/m/a".data, [2], [10, 11], [1, 0]⟩],
      [⟨"/m/t".data, [2], [2, 3], [4, 5, 6, 7, 8, 9], [0, 0, 0, 0, 0, 1]⟩]⟩⟩

def rs2w : List Rec :=
  [saveParamRecord ⟨"/m/a".data, [2], [10, 11], [1, 0]⟩ ("/k/a".data),
    saveLookupRecord ⟨"/m/t".data, [2], [2, 3], [4, 5, 6, 7, 8, 9], [0, 0, 0, 0, 0, 1]⟩
      ("/k/t".data)]

theorem c2_payload_length_exact_witness :
    (parseHeaderInto hv0 (headerStr (saveParamRecord ⟨"/m/a".data, [2], [10, 11], [1, 0]⟩
        ("/k/a".data)))).byte_count =
      (payloadStr (saveParamRecord ⟨"/m/a".data, [2], [10, 11], [1, 0]⟩
        ("/k/a".data))).length ∧
    recStart rs2w 0 +
        (headerStr (saveParamRecord ⟨"/m/a".data, [2], [10, 11], [1, 0]⟩
          ("/k/a".data))).length + 1 +
        (payloadStr (saveParamRecord ⟨"/m/a".data, [2], [10, 11], [1, 0]⟩
          ("/k/a".data))).length =
      recStart rs2w 1 := by
  have h := (c2_payload_length_exact m2w ("/k".data) rs2w (by decide) (by decide)
    (by decide) (by decide) (by decide)).2 0
    (saveParamRecord ⟨"/m/a".data, [2], [10, 11], [1, 0]⟩ ("/k/a".data)) (by decide)
  exact ⟨h.2.1, h.2.2.1⟩

/-- Claim C6: each of the four single-entity reads with a non-empty key —
populate of a parameter, populate of a lookup parameter, load of a
parameter, load of a lookup parameter — fails with a NotFound error naming
the key (and, for the populates, the unmodified target) whenever no record
carries both the matching tag and exactly the requested key; every record
is only ever skipped via the declared payload length. -/
theorem c6_not_found (rs : List Rec) (key : Str) (hwf : WFFile rs = true)
    (hkey : key ≠ []) :
    (∀ param : ParameterStorage, findMatch rs pTag key = none →
      populateParam (serializeRecs rs) param key = .error (.notFound key, param)) ∧
    (∀ param : LookupParameterStorage, findMatch rs lTag key = none →
      populateLookup (serializeRecs rs) param key = .error (.notFound key, param)) ∧
    (∀ st : ParameterCollectionStorage, findMatch rs pTag key = none →
      load_param (serializeRecs rs) st key = .error (.notFound key, st)) ∧
    (∀ st : ParameterCollectionStorage, findMatch rs lTag key = none →
      load_lookup_param (serializeRecs rs) st key = .error (.notFound key, st)) := by
  refine ⟨?_, ?_, ?_, ?_⟩
  · intro param hnone
    rw [populateParam_char rs param key hwf hkey, hnone]
  · intro param hnone
    rw [populateLookup_char rs param key hwf hkey, hnone]
  · intro st hnone
    rw [load_param_char rs st key hwf hkey, hnone]
  · intro st hnone
    rw [load_lookup_param_char rs st key hwf hkey, hnone]

def rs6w : List Rec := [⟨pTag, "/a".data, [1], [5], [6]⟩]

def p6w : ParameterStorage := ⟨"w".data, [1], [9], [9]⟩

theorem c6_not_found_witness :
    populateParam (serializeRecs rs6w) p6w ("/missing".data) =
      .error (.notFound ("/missing".data), p6w) :=
  (c6_not_found rs6w ("/missing".data) (by decide) (by decide)).1 p6w (by decide)

/-- Claim C4: when the matched record's declared shape differs from the
target's shape, the populate fails fatally with an error carrying both
shapes and leaves the target's stored values and gradients unchanged: the
single-entity populates report the error with the untouched target state,
and a shape-mismatch abort of the bulk populate leaves the entity being
populated — identified by carrying the reported target shape at its
position — exactly as it was in the reported storage. -/
theorem c4_shape_mismatch (rs : List Rec) (key : Str) (hwf : WFFile rs = true)
    (hkey : key ≠ []) :
    (∀ (param : ParameterStorage) (r : Rec), findMatch rs pTag key = some r →
      ¬(param.dim = r.dims) →
      populateParam (serializeRecs rs) param key =
        .error (.populateMismatchParam param.dim r.dims, param)) ∧
    (∀ (param : LookupParameterStorage) (r : Rec), findMatch rs lTag key = some r →
      ¬(param.all_dim = r.dims) →
      populateLookup (serializeRecs rs) param key =
        .error (.populateMismatchLookup param.all_dim r.dims, param)) ∧
    (∀ (st st' : ParameterCollectionStorage) (n : Str) (d1 d2 : Dim),
      populateModel (serializeRecs rs) st key = .error (.dimMismatchParam n d1 d2, st') →
      d1 ≠ d2 ∧ ∃ i p, st.params.get? i = some p ∧ p.dim = d2 ∧
        st'.params.get? i = some p) ∧
    (∀ (st st' : ParameterCollectionStorage) (n : Str) (d1 d2 : Dim),
      populateModel (serializeRecs rs) st key = .error (.dimMismatchLookup n d1 d2, st') →
      d1 ≠ d2 ∧ ∃ i q, st.lookup_params.get? i = some q ∧ q.all_dim = d2 ∧
        st'.lookup_params.get? i = some q) := by
  refine ⟨?_, ?_, ?_, ?_⟩
  · intro param r hfm hdim
    rw [populateParam_char rs param key hwf hkey, hfm]
    exact if_pos hdim
  · intro param r hfm hdim
    rw [populateLookup_char rs param key hwf hkey, hfm]
    exact if_pos hdim
  · intro st st' n d1 d2 herr
    rw [populateModel_adequate rs st key hwf hkey] at herr
    obtain ⟨hne, i, -, p, h1, h2, h3⟩ := refLoadAux_dim_err_param _ _ _ _ _ _ _ _ herr
    exact ⟨hne, i, p, h1, h2, h3⟩
  · intro st st' n d1 d2 herr
    rw [populateModel_adequate rs st key hwf hkey] at herr
    obtain ⟨hne, i, -, q, h1, h2, h3⟩ := refLoadAux_dim_err_lookup _ _ _ _ _ _ _ _ herr
    exact ⟨hne, i, q, h1, h2, h3⟩

def rs4w : List Rec := [⟨pTag, "/a".data, [3, 5], List.replicate 15 2, List.replicate 15 0⟩]

def p4w : ParameterStorage := ⟨"/a".data, [3, 4], List.replicate 12 1, List.replicate 12 0⟩

theorem c4_shape_mismatch_witness :
    populateParam (serializeRecs rs4w) p4w ("/a".data) =
      .error (.populateMismatchParam [3, 4] [3, 5], p4w) :=
  (c4_shape_mismatch rs4w ("/a".data) (by decide) (by decide)).1 p4w
    ⟨pTag, "/a".data, [3, 5], List.replicate 15 2, List.replicate 15 0⟩
    (by decide) (by decide)

/-- Claim C8: on a `#LookupParameter#` match, `load_lookup_param` splits
the last declared extent off as the row count, allocates through the model
factory a lookup parameter whose per-row shape is the remaining extents
(full shape = per-row shape with the row count as trailing extent), assigns
the record's key as the new entity's name, fills its values and gradients
from the payload, and appends it to the model's lookup list. -/
theorem c8_lookup_split (rs : List Rec) (st : ParameterCollectionStorage) (key : Str)
    (r : Rec) (rows : Nat)
    (hwf : WFFile rs = true) (hkey : key ≠ [])
    (hfm : findMatch rs lTag key = some r) (hlast : r.dims.getLast? = some rows) :
    load_lookup_param (serializeRecs rs) st key =
      .ok (⟨key, r.dims.dropLast, r.dims.dropLast ++ [rows], r.vals, r.grads⟩,
        { st with lookup_params := st.lookup_params ++
            [⟨key, r.dims.dropLast, r.dims.dropLast ++ [rows], r.vals, r.grads⟩] }) := by
  have hname : r.name = key := (findMatch_facts hfm).2.2
  rw [load_lookup_param_char rs st key hwf hkey, hfm]
  simp only [hlast, hname]

def rs8w : List Rec :=
  [⟨lTag, "/e".data, [4, 10], List.replicate 40 7, List.replicate 40 8⟩]

def st8w : ParameterCollectionStorage := ⟨[], []⟩

theorem c8_lookup_split_witness :
    load_lookup_param (serializeRecs rs8w) st8w ("/e".data) =
      .ok (⟨"/e".data, [4], [4, 10], List.replicate 40 7, List.replicate 40 8⟩,
        { st8w with lookup_params := st8w.lookup_params ++
            [⟨"/e".data, [4], [4, 10], List.replicate 40 7, List.replicate 40 8⟩] }) :=
  c8_lookup_split rs8w st8w ("/e".data)
    ⟨lTag, "/e".data, [4, 10], List.replicate 40 7, List.replicate 40 8⟩ 10
    (by decide) (by decide) (by decide) (by decide)

/-- The records a bulk populate with the given non-empty key decodes. -/
def matchedRecs (rs : List Rec) (key : Str) : List Rec :=
  rs.filter (fun x => (normKey key).isPrefixOf x.name)

/-- Claim C5: for a bulk populate whose scan reaches end of stream (all
matched records have recognizable tags and shapes agreeing with their
positional targets), a consumed-count differing from the model's totals is
a fatal count-mismatch error reporting loaded versus expected counts for
both kinds; and when the matching records outnumber the entities, the scan
aborts on a fatal too-many-entities error while scanning. -/
theorem c5_count_mismatch (rs : List Rec) (st : ParameterCollectionStorage) (key : Str)
    (hwf : WFFile rs = true) (hkey : key ≠ [])
    (htags : ∀ r ∈ matchedRecs rs key, r.tag = pTag ∨ r.tag = lTag)
    (hdp : ((paramRecs (matchedRecs rs key)).zip st.params).all
      (fun x => x.1.dims == x.2.dim) = true)
    (hdl : ((lookupRecs (matchedRecs rs key)).zip st.lookup_params).all
      (fun x => x.1.dims == x.2.all_dim) = true) :
    (((paramRecs (matchedRecs rs key)).length ≤ st.params.length ∧
        (lookupRecs (matchedRecs rs key)).length ≤ st.lookup_params.length ∧
        ((paramRecs (matchedRecs rs key)).length ≠ st.params.length ∨
          (lookupRecs (matchedRecs rs key)).length ≠ st.lookup_params.length)) →
      ∃ st', populateModel (serializeRecs rs) st key =
        .error (.countMismatch (paramRecs (matchedRecs rs key)).length
          (lookupRecs (matchedRecs rs key)).length st.params.length
          st.lookup_params.length, st')) ∧
    ((st.params.length < (paramRecs (matchedRecs rs key)).length ∨
        st.lookup_params.length < (lookupRecs (matchedRecs rs key)).length) →
      ∃ st' nm,
        populateModel (serializeRecs rs) st key = .error (.tooManyParams nm, st') ∨
        populateModel (serializeRecs rs) st key = .error (.tooManyLookups nm, st')) := by
  have hpop : populateModel (serializeRecs rs) st key =
      refLoadAux st 0 0 (matchedRecs rs key) :=
    populateModel_adequate rs st key hwf hkey
  obtain ⟨h1, h2⟩ := refLoadAux_counts (matchedRecs rs key) st 0 0 htags
    (by simpa using hdp) (by simpa using hdl) (by omega) (by omega)
  constructor
  · rintro ⟨hple, hlle, hne⟩
    obtain ⟨st', -, -, he⟩ := h1 ⟨by omega, by omega⟩
    refine ⟨st', ?_⟩
    rw [hpop, he, if_neg (by omega)]
    have e1 : 0 + (paramRecs (matchedRecs rs key)).length =
        (paramRecs (matchedRecs rs key)).length := by omega
    have e2 : 0 + (lookupRecs (matchedRecs rs key)).length =
        (lookupRecs (matchedRecs rs key)).length := by omega
    rw [e1, e2]
  · intro hover
    obtain ⟨st', nm, hc⟩ := h2 (by omega)
    rcases hc with hc | hc
    · exact ⟨st', nm, Or.inl (by rw [hpop]; exact hc)⟩
    · exact ⟨st', nm, Or.inr (by rw [hpop]; exact hc)⟩

/-- A model with two parameters and a file with a single matching
`#Parameter#` record: the claim's count-mismatch example. -/
def rs5w : List Rec := [⟨pTag, "/a/x".data, [2], [1, 2], [3, 4]⟩]

def st5w : ParameterCollectionStorage :=
  ⟨[⟨"u".data, [2], [0, 0], [0, 0]⟩, ⟨"v".data, [2], [0, 0], [0, 0]⟩], []⟩

theorem c5_count_mismatch_witness :
    ∃ st', populateModel (serializeRecs rs5w) st5w ("/a".data) =
      .error (.countMismatch 1 0 2 0, st') :=
  (c5_count_mismatch rs5w st5w ("/a".data) (by decide) (by decide)
      (by decide) (by decide) (by decide)).1
    ⟨by decide, by decide, Or.inl (by decide)⟩

theorem tokenOk_pos {t : Str} (h : tokenOk t = true) : 0 < t.length := by
  unfold tokenOk at h
  rw [Bool.and_eq_true] at h
  cases t with
  | nil => simp at h
  | cons a l => simp

theorem isPre_append (pre t : Str) : pre.isPrefixOf (pre ++ t) = true := by
  rw [isPre_iff_take]
  exact List.take_left pre t

theorem saveParamRecord_name_of_pos {p : ParameterStorage} {k : Str} (h : 0 < k.length) :
    (saveParamRecord p k).name = k := by
  unfold saveParamRecord
  simp [h]

theorem saveLookupRecord_name_of_pos {q : LookupParameterStorage} {k : Str}
    (h : 0 < k.length) : (saveLookupRecord q k).name = k := by
  unfold saveLookupRecord
  simp [h]

/-- A concrete model: full name `/m`, one parameter `/m/w` of shape `{2}`. -/
def m1c : Model := ⟨"/m".data, ⟨[⟨"/m/w".data, [2], [3, 4], [1, 1]⟩], []⟩⟩

/-- A well-formed model with a tab inside the key: full name `/m`, one
well-formed parameter `/m/a` of shape `{2}`. -/
def m1t : Model := ⟨"/m".data, ⟨[⟨"/m/a".data, [2], [3, 4], [1, 1]⟩], []⟩⟩

/-- A key containing a tab character, accepted by the validator (which only
rejects space and hash) but not whitespace-free. -/
def c1tKey : Str := "/a\tb".data

/-- A model whose parameter name `x` is shorter than the model's full name
`/m`, so the saver's `name.substr(strip_size)` throws. -/
def m1s : Model := ⟨"/m".data, ⟨[⟨"x".data, [2], [1, 2], [3, 4]⟩], []⟩⟩

/-- Claim C1 counterexample, three accepted inputs on which the round trip
fails. (a) The empty key is accepted by the namespaced-key validator, yet
with it the whole-model save reads `key_.back()` out of bounds and aborts
producing no file, and the whole-model populate aborts the same way.
(b) The key `/a<TAB>b` is accepted (the validator only rejects space and
hash) and the save of a well-formed model succeeds, but the written header
tokenizes wrongly on reload — the tab splits the record name — so the
bulk populate skips the record and fails with a count mismatch instead of
restoring the values. (c) A well-formed model whose parameter is named `x`,
shorter than the model's full name `/m`, makes the save throw inside
`name.substr(strip_size)` at an accepted key, so no file is produced at
all. -/
theorem c1_counterexample_roundtrip :
    (valid_pc_key [] = true ∧ saveModel m1c [] = none ∧
      populateModel ("y".data) m1c.storage [] = .error (.oobRead, m1c.storage)) ∧
    (valid_pc_key c1tKey = true ∧ tokenOk c1tKey = false ∧
      WFModel m1t = true ∧ (saveModel m1t c1tKey).isSome = true ∧
      populateModel ((saveModel m1t c1tKey).getD []) m1t.storage c1tKey =
        .error (.countMismatch 0 0 1 0, m1t.storage)) ∧
    (valid_pc_key ("/k".data) = true ∧ WFModel m1s = true ∧
      saveModel m1s ("/k".data) = none) := by
  refine ⟨⟨rfl, rfl, rfl⟩, ⟨by decide, by decide, by decide, ?_, ?_⟩,
    ⟨by decide, by decide, rfl⟩⟩
  · rfl
  · rfl

/-- Claim C1 (amended): for every non-empty, whitespace-free key the
namespaced-key validator accepts, and every well-formed model whose entity
names are at least as long as the model's own full name (so the saver's
`substr(strip_size)` stays in bounds), saving and then populating a
structurally identical well-formed model reproduces every entity's values
and gradients exactly (the embedding's numeric codec being lossless, as
the spec declares the 8-significant-digit float codec to be). -/
theorem c1_roundtrip_amended (m : Model) (st₂ : ParameterCollectionStorage) (key : Str)
    (hval : valid_pc_key key = true) (htok : tokenOk key = true) (hkey : key ≠ [])
    (hm : WFModel m = true)
    (hnp : ∀ p ∈ m.storage.params, m.fullname.length ≤ p.name.length)
    (hnl : ∀ q ∈ m.storage.lookup_params, m.fullname.length ≤ q.name.length)
    (h₂ : WFStorage st₂ = true)
    (hdp : st₂.params.map (fun p => p.dim) = m.storage.params.map (fun p => p.dim))
    (hdl : st₂.lookup_params.map (fun q => q.all_dim) =
      m.storage.lookup_params.map (fun q => q.all_dim)) :
    ∃ f, saveModel m key = some f ∧
      populateModel f st₂ key =
        .ok ⟨List.zipWith copyVals st₂.params m.storage.params,
          List.zipWith copyValsL st₂.lookup_params m.storage.lookup_params⟩ := by
  obtain ⟨ps₂, ls₂⟩ := st₂
  have hrs := saveModelRecords_eq m key hval hkey hnp hnl
  have hwfile := saveRecords_WFFile m key htok hm
  set mk₁ : ParameterStorage → Rec :=
    fun p => saveParamRecord p (normKey key ++ p.name.drop m.fullname.length) with hm1
  set mk₂ : LookupParameterStorage → Rec :=
    fun q => saveLookupRecord q (normKey key ++ q.name.drop m.fullname.length) with hm2
  set L := m.storage.params.map mk₁ ++ m.storage.lookup_params.map mk₂ with hL
  refine ⟨serializeRecs L, ?_, ?_⟩
  · unfold saveModel
    rw [hrs]
    rfl
  · rw [populateModel_adequate L ⟨ps₂, ls₂⟩ key hwfile hkey]
    have hknorm : 0 < (normKey key).length := tokenOk_pos (normKey_tokenOk htok)
    have hfilter : L.filter (fun r => (normKey key).isPrefixOf r.name) = L := by
      rw [List.filter_eq_self]
      intro r hr
      rw [hL, List.mem_append] at hr
      rcases hr with h1 | h2
      · obtain ⟨p, -, rfl⟩ := List.mem_map.mp h1
        rw [hm1]
        simp only
        rw [saveParamRecord_name_of_pos (by simp; omega)]
        exact isPre_append _ _
      · obtain ⟨q, -, rfl⟩ := List.mem_map.mp h2
        rw [hm2]
        simp only
        rw [saveLookupRecord_name_of_pos (by simp; omega)]
        exact isPre_append _ _
    rw [hfilter, hL]
    obtain ⟨hwf2p, hwf2l⟩ := WFStorage_parts h₂
    obtain ⟨hwf1p, hwf1l⟩ := WFStorage_parts hm
    simp only at hwf2p hwf2l hdp hdl
    have hlenp : ps₂.length = m.storage.params.length := by
      have := congrArg List.length hdp
      simpa using this
    have hlenl : ls₂.length = m.storage.lookup_params.length := by
      have := congrArg List.length hdl
      simpa using this
    have hfp : ∀ i p₂ p₁, ps₂.get? i = some p₂ → m.storage.params.get? i = some p₁ →
        p₂.dim = p₁.dim ∧ p₂.values.length = p₁.values.length ∧
          p₂.g.length = p₁.g.length := by
      intro i p₂ p₁ h2i h1i
      have hd : p₂.dim = p₁.dim := by
        have e := congrArg (fun l => l.get? i) hdp
        simp only [List.get?_map, h2i, h1i, Option.map_some'] at e
        injection e
      obtain ⟨-, w2v, w2g⟩ := WFParam_parts (hwf2p p₂ (List.get?_mem h2i))
      obtain ⟨-, w1v, w1g⟩ := WFParam_parts (hwf1p p₁ (List.get?_mem h1i))
      exact ⟨hd, by rw [w2v, w1v, hd], by rw [w2g, w1g, hd]⟩
    have hfl : ∀ i q₂ q₁, ls₂.get? i = some q₂ →
        m.storage.lookup_params.get? i = some q₁ →
        q₂.all_dim = q₁.all_dim ∧ q₂.all_values.length = q₁.all_values.length ∧
          q₂.all_grads.length = q₁.all_grads.length := by
      intro i q₂ q₁ h2i h1i
      have hd : q₂.all_dim = q₁.all_dim := by
        have e := congrArg (fun l => l.get? i) hdl
        simp only [List.get?_map, h2i, h1i, Option.map_some'] at e
        injection e
      obtain ⟨-, w2v, w2g⟩ := WFLookup_parts (hwf2l q₂ (List.get?_mem h2i))
      obtain ⟨-, w1v, w1g⟩ := WFLookup_parts (hwf1l q₁ (List.get?_mem h1i))
      exact ⟨hd, by rw [w2v, w1v, hd], by rw [w2g, w1g, hd]⟩
    have hph1 := refLoadAux_params_phase mk₁ (fun p => ⟨rfl, rfl, rfl, rfl⟩)
      m.storage.params ps₂ [] ls₂ 0 (m.storage.lookup_params.map mk₂) hlenp hfp
    simp only [List.nil_append, List.length_nil, Nat.zero_add] at hph1
    rw [hph1]
    have hph2 := refLoadAux_lookups_phase mk₂ (fun q => ⟨rfl, rfl, rfl, rfl⟩)
      m.storage.lookup_params ls₂ [] (List.zipWith copyVals ps₂ m.storage.params)
      m.storage.params.length hlenl hfl
    simp only [List.nil_append, List.length_nil, Nat.zero_add] at hph2
    rw [hph2]
    have hz1 : (List.zipWith copyVals ps₂ m.storage.params).length =
        m.storage.params.length := by
      rw [List.length_zipWith, hlenp, Nat.min_self]
    have hz2 : (List.zipWith copyValsL ls₂ m.storage.lookup_params).length =
        m.storage.lookup_params.length := by
      rw [List.length_zipWith, hlenl, Nat.min_self]
    rw [← hz1, ← hz2]
    exact refLoadAux_done _

def m1w : Model :=
  ⟨"/m/".data,
    ⟨[⟨"/m/a".data, [2], [10, 11], [1, 0]⟩],
      [⟨"/m/t".data, [2], [2, 3], [4, 5, 6, 7, 8, 9], [0, 0, 0, 0, 0, 1]⟩]⟩⟩

def st1w : ParameterCollectionStorage :=
  ⟨[⟨"x".data, [2], [9, 9], [9, 9]⟩],
    [⟨"y".data, [2], [2, 3], [1, 1, 1, 1, 1, 1], [2, 2, 2, 2, 2, 2]⟩]⟩

theorem c1_roundtrip_amended_witness :
    ∃ f, saveModel m1w ("/k".data) = some f ∧
      populateModel f st1w ("/k".data) =
        .ok ⟨List.zipWith copyVals st1w.params m1w.storage.params,
          List.zipWith copyValsL st1w.lookup_params m1w.storage.lookup_params⟩ :=
  c1_roundtrip_amended m1w st1w ("/k".data) (by decide) (by decide) (by decide)
    (by decide) (by decide) (by decide) (by decide) (by decide) (by decide)
